import Mathlib

/-!
# Librarian resolution & governance core — shallow embedding and verification

This file embeds, in Lean 4, the deterministic resolution/governance core of the
Librarian backend (`backend/app/entity_resolution/similarity.py`,
`backend/app/entity_resolution/resolver.py`, `backend/app/schema/predicate_registry.py`,
`backend/app/services/embeddings.py`, `backend/app/services/schema_stabilization.py`,
and the global entity matching part of `backend/app/services/extraction.py`), and
proves or refutes the frozen specification claims about it.

Modelling conventions:
* Python strings are `List Char` (`Str`); the Python functions operate on the
  ASCII regime exercised by this code (lowercasing and whitespace are modelled
  with explicit ASCII predicates mirroring the regexes used in the source).
* Python floats are exact rationals `ℚ`.  The only float values that are not
  rational are the cosine-similarity scores (which involve a square root); those
  are carried symbolically by the `Score` type, whose comparison functions decide
  the corresponding exact real-number comparisons (documented at `Score`).
* Stateful code (SQLAlchemy sessions mutating ORM rows) is modelled by explicit
  state passing over lists of records keyed by id.
* Network calls are modelled per the code's offline/fail-closed defaults:
  the LLM disambiguation helper returns `False` when disambiguation is disabled
  or no API key is configured (the default settings), with no other effect.
-/

set_option maxRecDepth 200000

/- Mathlib marks the core `Rat` arithmetic irreducible (steering proofs towards
`norm_num`); this development evaluates concrete program runs by kernel
reduction, so restore reducibility locally. -/
attribute [local semireducible] Rat.add Rat.mul Rat.sub Rat.inv

abbrev Str := List Char

/-- Python `max(a, b)` on floats (returns `a` on ties), kernel-reducible on `ℚ`. -/
def pyMax (a b : ℚ) : ℚ := if a < b then b else a


/-! ## Character-level helpers (`re` and `str` behaviour used by the source) -/

/-- Python `\s` / `str.split()` whitespace, ASCII regime. -/
def isPySpace (c : Char) : Bool :=
  c = ' ' || c = '\t' || c = '\n' || c = '\r' || c = Char.ofNat 11 || c = Char.ofNat 12

/-- Characters matched by `[a-z0-9]`. -/
def isLowerAlnum (c : Char) : Bool :=
  ('a' ≤ c && c ≤ 'z') || ('0' ≤ c && c ≤ '9')

/-- `re.sub(p+ , rep, s)` for a character class `p`: replace every maximal run of
characters satisfying `p` by the single character `rep`. -/
def collapseRuns (p : Char → Bool) (rep : Char) : Str → Str
  | [] => []
  | [c] => if p c then [rep] else [c]
  | c₁ :: c₂ :: rest =>
    if p c₁ && p c₂ then collapseRuns p rep (c₂ :: rest)
    else (if p c₁ then rep else c₁) :: collapseRuns p rep (c₂ :: rest)

/-- `str.strip(chars)`: drop characters satisfying `p` from both ends. -/
def stripEnds (p : Char → Bool) (l : Str) : Str :=
  ((l.dropWhile p).reverse.dropWhile p).reverse

/-- Python `str.lower()`, ASCII regime (as in `Char.toLower`). -/
def pyLower (l : Str) : Str := l.map Char.toLower

/-- Python `str.split()` (split on whitespace runs, no empty parts). -/
def splitRuns (p : Char → Bool) : Str → Str → List Str
  | [], acc => if acc.isEmpty then [] else [acc.reverse]
  | c :: rest, acc =>
    if p c then
      if acc.isEmpty then splitRuns p rest [] else acc.reverse :: splitRuns p rest []
    else splitRuns p rest (c :: acc)

def pySplitWs (l : Str) : List Str := splitRuns isPySpace l []

/-- `_TOKEN_RE.findall` with `[a-z0-9]+`: the maximal alphanumeric runs. -/
def alnumTokens (l : Str) : List Str := splitRuns (fun c => !isLowerAlnum c) l []

/-- No two adjacent characters both satisfy `p` (used to characterize the
image of `collapseRuns`). -/
def noAdjPair (p : Char → Bool) : Str → Bool
  | [] => true
  | [_] => true
  | a :: b :: rest => !(p a && p b) && noAdjPair p (b :: rest)

/-! ## `entity_resolution/similarity.py` -/

/-- `normalize_entity_text`: strip+lowercase, collapse whitespace, drop characters
outside `[a-z0-9\s]`, collapse whitespace again and strip. -/
def normalize_entity_text (value : Str) : Str :=
  let collapsed := collapseRuns isPySpace ' ' (pyLower (stripEnds isPySpace value))
  let cleaned := collapsed.filter (fun c => isLowerAlnum c || isPySpace c)
  stripEnds isPySpace (collapseRuns isPySpace ' ' cleaned)

/-- `len(set(l) & set(r))`, with Python sets modelled as deduplicated lists. -/
def setInterCard (l r : List Str) : Nat :=
  (l.dedup.filter (fun t => r.contains t)).length

/-- `len(set(l) | set(r))`. -/
def setUnionCard (l r : List Str) : Nat :=
  (l ++ r).dedup.length

/-- `token_set_similarity`: Jaccard similarity of the normalized token sets. -/
def token_set_similarity (left right : Str) : ℚ :=
  let leftTokens := pySplitWs (normalize_entity_text left)
  let rightTokens := pySplitWs (normalize_entity_text right)
  if leftTokens.isEmpty || rightTokens.isEmpty then 0
  else
    let inter := setInterCard leftTokens rightTokens
    let union := setUnionCard leftTokens rightTokens
    if union = 0 then 0 else (inter : ℚ) / (union : ℚ)

/-!
### `difflib.SequenceMatcher` (no junk; autojunk inactive for |b| < 200)

The source computes `SequenceMatcher(a=..., b=...).ratio()` on normalized entity
strings.  With no junk function and below difflib's autojunk activation length
(200), `find_longest_match` returns, among all maximal matching blocks, the one
starting earliest in `a`, tie-broken earliest in `b`, and `ratio` is
`2·M/(len a + len b)` where `M` totals the block sizes of the recursive
longest-match decomposition.  We model exactly that regime (every string this
code compares is far below 200 characters).
-/

/-- `a[i:i+k] == b[j:j+k]`. -/
def segEq (a b : Str) (i j k : Nat) : Bool :=
  ((a.drop i).take k) = ((b.drop j).take k)

/-- Candidate blocks `(i, j, k)` inside the window, listed by `k` descending,
then `i` ascending, then `j` ascending — the `find_longest_match` preference
order. -/
def flmCandidates (alo ahi blo bhi : Nat) : List (Nat × Nat × Nat) :=
  let kmax := min (ahi - alo) (bhi - blo)
  ((List.range kmax).map (fun d => kmax - d)).flatMap (fun k =>
    (List.range (ahi - alo + 1 - k)).flatMap (fun di =>
      (List.range (bhi - blo + 1 - k)).map (fun dj => (alo + di, blo + dj, k))))

/-- `SequenceMatcher.find_longest_match` on the window `a[alo:ahi] × b[blo:bhi]`:
first (longest, earliest-in-`a`, earliest-in-`b`) equal block, else `(alo, blo, 0)`. -/
def findLongestMatch (a b : Str) (alo ahi blo bhi : Nat) : Nat × Nat × Nat :=
  match (flmCandidates alo ahi blo bhi).find? (fun t => segEq a b t.1 t.2.1 t.2.2) with
  | some t => t
  | none => (alo, blo, 0)

/-- Total size of the matching blocks (the `M` of `ratio`), with explicit fuel;
fuel `(ahi-alo)+(bhi-blo)` always suffices because each recursive window is
strictly smaller. -/
def matchTotal (a b : Str) : Nat → Nat → Nat → Nat → Nat → Nat
  | 0, _, _, _, _ => 0
  | fuel + 1, alo, ahi, blo, bhi =>
    let t := findLongestMatch a b alo ahi blo bhi
    if t.2.2 = 0 then 0
    else
      matchTotal a b fuel alo t.1 blo t.2.1 + t.2.2 +
        matchTotal a b fuel (t.1 + t.2.2) ahi (t.2.1 + t.2.2) bhi

/-- `SequenceMatcher.ratio()`: `2·M / (len a + len b)` (`1.0` for two empties). -/
def seqRatio (a b : Str) : ℚ :=
  let la := a.length
  let lb := b.length
  if la + lb = 0 then 1
  else (2 * (matchTotal a b (la + lb) 0 la 0 lb : ℚ)) / (la + lb : ℚ)

/-- `string_similarity`: 0 on empty normalization, 1 on equal normalization, else
the max of sequence ratio and token-set similarity of the normalized forms. -/
def string_similarity (left right : Str) : ℚ :=
  let normLeft := normalize_entity_text left
  let normRight := normalize_entity_text right
  if normLeft = [] || normRight = [] then 0
  else if normLeft = normRight then 1
  else pyMax (seqRatio normLeft normRight) (token_set_similarity normLeft normRight)

/-!
## Similarity scores (`Score`)

The only irrational numbers this core ever computes are cosine-similarity
values `(dot/√(‖u‖²·‖v‖²) + 1)/2` (from `cosine_similarity` in
`services/embeddings.py`); every other score is rational.  A `Score` is either
a rational, or the symbolic value `cosv d n` denoting `(d/√n + 1)/2` with
`0 < n` and `d² < n` (`mkCos` normalizes the clamped / degenerate cases to
rationals).  `Score.le` decides the exact real-number order by sign analysis and
cross-squaring, so every comparison the Python code performs on float scores is
decided exactly.
-/

inductive Score where
  | rat : ℚ → Score
  | cosv : ℚ → ℚ → Score
deriving DecidableEq, Repr

/-- The score `max(0, min(1, (d/√n + 1)/2))` for `0 < n` (the cosine rescaled to
`[0,1]` and clamped, as in `cosine_similarity`). -/
def mkCos (d n : ℚ) : Score :=
  if d = 0 then .rat (1/2)
  else if 0 < d then (if n ≤ d * d then .rat 1 else .cosv d n)
  else (if n ≤ d * d then .rat 0 else .cosv d n)

/-- Exact order on scores (`cosv d n` denotes `(d/√n + 1)/2`). -/
def Score.le : Score → Score → Bool
  | .rat p, .rat q => p ≤ q
  | .rat p, .cosv d n =>
    -- `2p−1 ≤ d/√n`
    let c := 2 * p - 1
    if 0 ≤ d then (c ≤ 0 || c * c * n ≤ d * d) else (c < 0 && d * d ≤ c * c * n)
  | .cosv d n, .rat q =>
    -- `d/√n ≤ 2q−1`
    let c := 2 * q - 1
    if d ≤ 0 then (0 ≤ c || c * c * n ≤ d * d) else (0 < c && d * d ≤ c * c * n)
  | .cosv d₁ n₁, .cosv d₂ n₂ =>
    -- `d₁/√n₁ ≤ d₂/√n₂`
    if 0 < d₁ then (0 < d₂ && d₁ * d₁ * n₂ ≤ d₂ * d₂ * n₁)
    else (0 ≤ d₂ || d₂ * d₂ * n₁ ≤ d₁ * d₁ * n₂)

def Score.lt (a b : Score) : Bool := !(Score.le b a)

/-- Python `max` over scores (returns the first argument on ties). -/
def Score.pyMax (a b : Score) : Score := if Score.lt a b then b else a

/-! ## SHA-256 (`hashlib.sha256`), used by the deterministic hash embedder -/

def w32 (x : Nat) : Nat := x % 4294967296

def rotr32 (n x : Nat) : Nat := w32 ((x >>> n) ||| (x <<< (32 - n)))

def shaCh (x y z : Nat) : Nat := (x &&& y) ^^^ ((x ^^^ 4294967295) &&& z)

def shaMaj (x y z : Nat) : Nat := (x &&& y) ^^^ (x &&& z) ^^^ (y &&& z)

def shaBigS0 (x : Nat) : Nat := rotr32 2 x ^^^ rotr32 13 x ^^^ rotr32 22 x

def shaBigS1 (x : Nat) : Nat := rotr32 6 x ^^^ rotr32 11 x ^^^ rotr32 25 x

def shaSmallS0 (x : Nat) : Nat := rotr32 7 x ^^^ rotr32 18 x ^^^ (x >>> 3)

def shaSmallS1 (x : Nat) : Nat := rotr32 17 x ^^^ rotr32 19 x ^^^ (x >>> 10)

def shaK : List Nat :=
  [1116352408, 1899447441, 3049323471, 3921009573, 961987163, 1508970993,
   2453635748, 2870763221, 3624381080, 310598401, 607225278, 1426881987,
   1925078388, 2162078206, 2614888103, 3248222580, 3835390401, 4022224774,
   264347078, 604807628, 770255983, 1249150122, 1555081692, 1996064986,
   2554220882, 2821834349, 2952996808, 3210313671, 3336571891, 3584528711,
   113926993, 338241895, 666307205, 773529912, 1294757372, 1396182291,
   1695183700, 1986661051, 2177026350, 2456956037, 2730485921, 2820302411,
   3259730800, 3345764771, 3516065817, 3600352804, 4094571909, 275423344,
   430227734, 506948616, 659060556, 883997877, 958139571, 1322822218,
   1537002063, 1747873779, 1955562222, 2024104815, 2227730452, 2361852424,
   2428436474, 2756734187, 3204031479, 3329325298]

def shaH0 : List Nat :=
  [1779033703, 3144134277, 1013904242, 2773480762,
   1359893119, 2600822924, 528734635, 1541459225]

/-- Pad a byte message to a multiple of 64 bytes (`0x80`, zeros, 64-bit
big-endian bit length). -/
def sha256Pad (msg : List Nat) : List Nat :=
  let bitLen := msg.length * 8
  let padZeros := (119 - (msg.length % 64)) % 64
  msg ++ 0x80 :: List.replicate padZeros 0 ++
    [(bitLen >>> 56) % 256, (bitLen >>> 48) % 256, (bitLen >>> 40) % 256, (bitLen >>> 32) % 256,
     (bitLen >>> 24) % 256, (bitLen >>> 16) % 256, (bitLen >>> 8) % 256, bitLen % 256]

/-- Big-endian 32-bit words of a byte list. -/
def shaWords : List Nat → List Nat
  | b0 :: b1 :: b2 :: b3 :: rest => ((b0 <<< 24) ||| (b1 <<< 16) ||| (b2 <<< 8) ||| b3) :: shaWords rest
  | _ => []

/-- Message schedule: extend 16 words to 64. -/
def shaSchedule (w16 : List Nat) : List Nat :=
  (List.range 48).foldl
    (fun w _ =>
      let n := w.length
      w ++ [w32 (shaSmallS1 (w.getD (n - 2) 0) + w.getD (n - 7) 0 +
                 shaSmallS0 (w.getD (n - 15) 0) + w.getD (n - 16) 0)])
    w16

/-- One SHA-256 compression round. -/
def shaRound (s : List Nat) (kw : Nat × Nat) : List Nat :=
  match s with
  | [a, b, c, d, e, f, g, h] =>
    let t1 := w32 (h + shaBigS1 e + shaCh e f g + kw.1 + kw.2)
    let t2 := w32 (shaBigS0 a + shaMaj a b c)
    [w32 (t1 + t2), a, b, c, w32 (d + t1), e, f, g]
  | s => s

/-- Process one 64-byte block. -/
def shaCompress (h : List Nat) (block : List Nat) : List Nat :=
  let w := shaSchedule (shaWords block)
  let final := (shaK.zip w).foldl shaRound h
  (h.zip final).map fun p => w32 (p.1 + p.2)

/-- `hashlib.sha256(msg).digest()` as a list of 32 bytes. -/
def sha256 (msg : List Nat) : List Nat :=
  let padded := sha256Pad msg
  let blocks := (List.range (padded.length / 64)).map fun i => (padded.drop (64 * i)).take 64
  let hFinal := blocks.foldl shaCompress shaH0
  hFinal.flatMap fun v => [(v >>> 24) % 256, (v >>> 16) % 256, (v >>> 8) % 256, v % 256]

/-!
## `services/embeddings.py`

Vectors are `EVec`s: a rational entry list plus a positive rational `scaleSq`,
denoting the real vector `entries / √scaleSq`.  The Python `_normalize_embedding`
divides by the (usually irrational) L2 norm; the model records the squared norm
in `scaleSq` instead.  This is exact: cosine similarity (the only consumer of
vector values) is invariant under positive scaling and is computed from
`entries` alone, and equalities between model vectors coincide with equalities
between the Python vectors.
-/

structure EVec where
  entries : List ℚ
  scaleSq : ℚ := 1
deriving DecidableEq, Repr

/-- Left fold of rational summands with a strict accumulator (matching on the
`Rat` constructor keeps kernel evaluation iterative on long vectors); the value
is the plain sequential sum the Python `sum(...)` computes. -/
def qSumGo : ℚ → List ℚ → ℚ
  | acc, [] => acc
  | acc, x :: l =>
    match acc + x with
    | ⟨n, d, nz, red⟩ => qSumGo ⟨n, d, nz, red⟩ l

/-- `sum(value * value for value in vector)` (the squared `_vector_norm`). -/
def sumSq (v : List ℚ) : ℚ := qSumGo 0 (v.map (fun x => x * x))

/-- `sum(l * r for l, r in zip(left, right))`. -/
def dotQ (l r : List ℚ) : ℚ := qSumGo 0 ((l.zip r).map (fun p => p.1 * p.2))

/-- `_normalize_embedding`: scale to unit norm (recorded in `scaleSq`); zero
vectors are returned unchanged. -/
def normalizeEmbedding (v : EVec) : EVec :=
  if sumSq v.entries = 0 then v else ⟨v.entries, sumSq v.entries⟩

def EMBEDDING_DIMENSIONS : Nat := 1536

/-- `cosine_similarity`: 0 for missing/empty/mismatched/zero-norm vectors, else
the cosine rescaled from `[-1,1]` to `[0,1]` and clamped.  Scale-invariance
makes `cos = dot(e₁,e₂)/√(sumSq e₁ · sumSq e₂)` for any `EVec` scalings. -/
def cosine_similarity (left right : Option EVec) : Score :=
  match left, right with
  | some l, some r =>
    if l.entries.isEmpty || r.entries.isEmpty || l.entries.length ≠ r.entries.length then .rat 0
    else
      let nl := sumSq l.entries
      let nr := sumSq r.entries
      if nl = 0 || nr = 0 then .rat 0
      else mkCos (dotQ l.entries r.entries) (nl * nr)
  | _, _ => .rat 0

/-- `ensure_embedding`: best-effort JSON→vector conversion.  Model embeddings
are already well-typed vectors, so this is the identity on `Option`. -/
def ensure_embedding (value : Option (List ℚ)) : Option (List ℚ) := value

/-- `hash_embed_text`: deterministic per-token index/sign/magnitude
accumulation through SHA-256, L2-normalized (via `scaleSq`). -/
def hash_embed_text (text : Str) (dimensions : Nat := EMBEDDING_DIMENSIONS) : EVec :=
  let cleanText := List.intercalate [' '] (pySplitWs (pyLower (stripEnds isPySpace text)))
  let tokens := alnumTokens cleanText
  let dim := max 1 dimensions
  let vector := List.replicate dim (0 : ℚ)
  if tokens.isEmpty then ⟨vector, 1⟩
  else
    let filled := tokens.foldl
      (fun vec tok =>
        let digest := sha256 (tok.map Char.toNat)
        (List.range 8).foldl
          (fun vec o =>
            let idx := digest.getD o 0 % vec.length
            let sign : ℚ := if digest.getD (o + 8) 0 % 2 = 1 then -1 else 1
            let magnitude : ℚ := (digest.getD (o + 16) 0 : ℚ) / 255 + 1 / 2
            vec.set idx (vec.getD idx 0 + sign * magnitude))
          vec)
      vector
    normalizeEmbedding ⟨filled, 1⟩

/-- An embedding client returns one raw vector per text or fails
(`EmbeddingError`). -/
abbrev EmbClient := List Str → Except Unit (List (List ℚ))

/-- `HashEmbeddingsClient.embed_texts`. -/
def hashClientEmbedTexts (texts : List Str) : List EVec :=
  texts.map (fun t => hash_embed_text t)

/-- `embed_texts_with_fallback`: embed through the client, falling back to the
hash embedder for the whole batch when the client fails or returns a wrong
vector count. -/
def embed_texts_with_fallback (texts : List Str) (client : EmbClient) : List EVec :=
  if texts.isEmpty then []
  else
    match client texts with
    | .ok vectors =>
      if vectors.length ≠ texts.length then hashClientEmbedTexts texts
      else vectors.map (fun v => normalizeEmbedding ⟨v, 1⟩)
    | .error _ => hashClientEmbedTexts texts

/-!
## `entity_resolution/resolver.py`

`llm_entity_disambiguation` performs a network round-trip only when
`enable_resolution_llm_disambiguation` is set **and** an OpenAI key is
configured; both default to off (`app/config.py`), in which case it returns
`False` before any I/O.  The model fixes that default, fail-closed behaviour.
-/

structure ExtractedEntity where
  name : Str
  type_label : Option Str := none
  confidence : ℚ := 0
  source_message_ids : List Nat := []
  aliases : List Str := []
  tags : List Str := []
deriving DecidableEq, Repr

/-- `_clean_type_label`. -/
def cleanTypeLabel (value : Option Str) : Option Str :=
  match value with
  | none => none
  | some v =>
    let cleaned := stripEnds isPySpace v
    if cleaned = [] then none else some cleaned

/-- `_type_key` (absent type gets its own bucket). -/
def typeKey (value : Option Str) : Str :=
  match cleanTypeLabel value with
  | some cleaned => pyLower cleaned
  | none => "__none__".toList

/-- `llm_entity_disambiguation` under the default settings (disambiguation
disabled / no API key): `False`, before any network request. -/
def llm_entity_disambiguation (_leftName : Str) (_leftAliases : List Str)
    (_rightName : Str) (_rightAliases : List Str) : Bool := false

/-- `_best_embedding_similarity`. -/
def bestEmbeddingSimilarity (leftAliases rightAliases : List Str) : Score :=
  if leftAliases.isEmpty || rightAliases.isEmpty then .rat 0
  else
    let leftVectors := (leftAliases.filter (fun a => stripEnds isPySpace a ≠ [])).map
      (fun a => hash_embed_text a)
    let rightVectors := (rightAliases.filter (fun a => stripEnds isPySpace a ≠ [])).map
      (fun a => hash_embed_text a)
    if leftVectors.isEmpty || rightVectors.isEmpty then .rat 0
    else
      leftVectors.foldl
        (fun best lv =>
          rightVectors.foldl (fun b rv => Score.pyMax b (cosine_similarity (some lv) (some rv))) best)
        (.rat 0)

/-- Stable insertion into an ascending list (`le` a total preorder). -/
def pyInsert {α : Type} (le : α → α → Bool) (x : α) : List α → List α
  | [] => [x]
  | y :: ys => if le x y then x :: y :: ys else y :: pyInsert le x ys

/-- Python `sorted` (stable ascending sort by the boolean `≤`). -/
def pySorted {α : Type} (le : α → α → Bool) : List α → List α
  | [] => []
  | x :: xs => pyInsert le x (pySorted le xs)

/-- Python list lexicographic `<` on strings (by code point). -/
def strLtB : Str → Str → Bool
  | [], [] => false
  | [], _ :: _ => true
  | _ :: _, [] => false
  | a :: as, b :: bs => if a < b then true else if b < a then false else strLtB as bs

def strLeB (a b : Str) : Bool := !(strLtB b a)

/-- `sorted` on python strings. -/
def sortStr (l : List Str) : List Str := pySorted strLeB l

/-- Insert into a python set modelled as a duplicate-free list. -/
def setInsert (l : List Str) (x : Str) : List Str :=
  if l.contains x then l else l ++ [x]

structure ClusterMember where
  extracted_index : Nat
  entity : ExtractedEntity
  merge_reason : Option Str
  merge_confidence : Score
deriving DecidableEq, Repr

structure EntityCluster where
  type_label : Option Str
  type_key : Str
  members : List ClusterMember := []
  aliases : List Str := []
  normalized_aliases : List Str := []
  canonical_name : Str := []
  canonical_member_index : Option Nat := none
deriving DecidableEq, Repr

/-- `_iter_entity_aliases`: the name followed by the aliases. -/
def iterEntityAliases (e : ExtractedEntity) : List Str := e.name :: e.aliases

/-- Python substring containment (`needle in hay`). -/
def strContains (hay needle : Str) : Bool :=
  (List.range (hay.length + 1)).any (fun i => needle.isPrefixOf (hay.drop i))

/-- ASCII `str.isupper()`: some cased character and no lowercase one. -/
def pyIsUpper (s : Str) : Bool :=
  (s.any fun c => ('a' ≤ c && c ≤ 'z') || ('A' ≤ c && c ≤ 'Z')) &&
    (s.all fun c => !('a' ≤ c && c ≤ 'z'))

def pyIsAscii (s : Str) : Bool := s.all fun c => c.toNat < 128

/-- `_canonical_name_score` (tuple compared lexicographically, higher wins). -/
def canonicalNameScore (name : Str) : Nat × Nat × Nat × Nat :=
  let stripped := stripEnds isPySpace name
  let tokenCount := (pySplitWs stripped).length
  let isTickerLike := pyIsUpper stripped && pyIsAscii stripped && tokenCount = 1 &&
    stripped.length ≤ 6
  let hasLegalSuffix :=
    [" inc", " corp", " corporation", " ltd", " llc", " plc", " co."].any
      (fun suffix => strContains (pyLower stripped) suffix.toList)
  (if hasLegalSuffix then 1 else 0, if isTickerLike then 0 else 1, tokenCount, stripped.length)

/-- Python `>` on 4-tuples of naturals (lexicographic). -/
def tup4Gt (x y : Nat × Nat × Nat × Nat) : Bool :=
  if x.1 ≠ y.1 then y.1 < x.1
  else if x.2.1 ≠ y.2.1 then y.2.1 < x.2.1
  else if x.2.2.1 ≠ y.2.2.1 then y.2.2.1 < x.2.2.1
  else y.2.2.2 < x.2.2.2

/-- `_EntityCluster._recompute_canonical`. -/
def recomputeCanonical (cl : EntityCluster) : EntityCluster :=
  let best := cl.members.foldl
    (fun (best : Option ((Nat × Nat × Nat × Nat) × Nat × Str)) member =>
      let name := stripEnds isPySpace member.entity.name
      if name = [] then best
      else
        let score := canonicalNameScore name
        match best with
        | none => some (score, member.extracted_index, name)
        | some (bscore, bidx, bname) =>
          if tup4Gt score bscore || (score = bscore && member.extracted_index < bidx) then
            some (score, member.extracted_index, name)
          else some (bscore, bidx, bname))
    none
  match best with
  | none => cl
  | some (_, canonicalIndex, canonicalName) =>
    { cl with canonical_member_index := some canonicalIndex, canonical_name := canonicalName }

/-- `_EntityCluster.add_member`. -/
def addMember (cl : EntityCluster) (extractedIndex : Nat) (entity : ExtractedEntity)
    (mergeReason : Option Str) (mergeConfidence : Score) : EntityCluster :=
  let cl := { cl with
    members := cl.members ++ [⟨extractedIndex, entity, mergeReason, mergeConfidence⟩] }
  let cl := (iterEntityAliases entity).foldl
    (fun cl aliasStr =>
      let cl := { cl with aliases := setInsert cl.aliases aliasStr }
      let normalized := normalize_entity_text aliasStr
      if normalized ≠ [] then
        { cl with normalized_aliases := setInsert cl.normalized_aliases normalized }
      else cl)
    cl
  recomputeCanonical cl

/-- `_EntityCluster.match`: `(reason, confidence)` when the entity matches. -/
def clusterMatch (cl : EntityCluster) (entity : ExtractedEntity) : Option (Str × Score) :=
  let candidateNames := iterEntityAliases entity
  let candidateNormalized :=
    ((candidateNames.map normalize_entity_text).filter (fun n => n ≠ [])).dedup
  if candidateNormalized.isEmpty then none
  else if candidateNormalized.any (fun c => cl.normalized_aliases.contains c) then
    some
      (if cl.normalized_aliases.contains (normalize_entity_text entity.name) then
        "exact_name_match".toList
       else "alias_match".toList, .rat 1)
  else
    let bestSimilarity := candidateNames.foldl
      (fun best cand => cl.aliases.foldl (fun b ex => pyMax b (string_similarity cand ex)) best) 0
    if (94 : ℚ) / 100 ≤ bestSimilarity then
      some ("embedding_similarity_threshold".toList, .rat bestSimilarity)
    else
      let embeddingScore := bestEmbeddingSimilarity candidateNames cl.aliases
      if Score.le (.rat (90 / 100)) embeddingScore then
        some ("embedding_similarity".toList, embeddingScore)
      else if Score.le (.rat (82 / 100)) embeddingScore &&
          llm_entity_disambiguation entity.name candidateNames cl.canonical_name cl.aliases then
        some ("llm_disambiguation".toList, embeddingScore)
      else none

structure EntityResolutionAssignment where
  extracted_index : Nat
  canonical_cluster_index : Nat
  canonical_name : Str
  type_label : Option Str
  merged : Bool
  reason_for_merge : Option Str
  confidence : Score
  known_aliases : List Str
deriving DecidableEq, Repr

structure EntityResolutionPlan where
  assignments : List EntityResolutionAssignment
  canonical_cluster_indexes : List Nat
deriving DecidableEq, Repr

/-- `_EntityCluster.build_assignment`. -/
def buildAssignment (cl : EntityCluster) (clusterIndex : Nat) (member : ClusterMember) :
    EntityResolutionAssignment :=
  let isCanonical := cl.canonical_member_index = some member.extracted_index
  { extracted_index := member.extracted_index
    canonical_cluster_index := clusterIndex
    canonical_name := cl.canonical_name
    type_label := cl.type_label
    merged := !isCanonical
    reason_for_merge :=
      if isCanonical then none
      else some (member.merge_reason.getD "cluster_canonicalization".toList)
    confidence := if isCanonical then .rat 1 else member.merge_confidence
    known_aliases := sortStr cl.aliases }

/-- Replace the `i`-th element through `f`. -/
def updateAt {α : Type} : Nat → (α → α) → List α → List α
  | _, _, [] => []
  | 0, f, x :: l => f x :: l
  | n + 1, f, x :: l => x :: updateAt n f l

/-- A fresh singleton cluster for an unmatched entity. -/
def newCluster (extractedIndex : Nat) (entity : ExtractedEntity) : EntityCluster :=
  addMember
    { type_label := cleanTypeLabel entity.type_label, type_key := typeKey entity.type_label }
    extractedIndex entity none (.rat 1)

/-- The cluster-scan step of `EntityResolver.resolve` for one entity: the
matching cluster of strictly highest confidence (earliest wins ties). -/
def scanClusters (clusters : List EntityCluster) (entity : ExtractedEntity) :
    Option Nat × Option Str × Score :=
  (clusters.enum).foldl
    (fun acc ic =>
      if ic.2.type_key ≠ typeKey entity.type_label then acc
      else
        match clusterMatch ic.2 entity with
        | none => acc
        | some (reason, confidence) =>
          if Score.lt acc.2.2 confidence then (some ic.1, some reason, confidence) else acc)
    (none, none, .rat 0)

/-- The cluster list after processing all entities in order. -/
def resolveClusters (entities : List ExtractedEntity) : List EntityCluster :=
  (entities.enum).foldl
    (fun clusters ie =>
      let scan := scanClusters clusters ie.2
      match scan.1 with
      | none => clusters ++ [newCluster ie.1 ie.2]
      | some idx => updateAt idx (fun cl => addMember cl ie.1 ie.2 scan.2.1 scan.2.2) clusters)
    []

/-- `EntityResolver.resolve`. -/
def resolve (entities : List ExtractedEntity) : EntityResolutionPlan :=
  let clusters := resolveClusters entities
  let assignments := (clusters.enum).flatMap
    (fun ic => ic.2.members.map (buildAssignment ic.2 ic.1))
  { assignments := pySorted (fun a b => a.extracted_index ≤ b.extracted_index) assignments
    canonical_cluster_indexes := (clusters.enum).map (fun ic => ic.1) }

/-- The loop of `EntityResolutionPlan.resolve_reference` (exact canonical match
breaks; alias containment keeps the last hit; fuzzy keeps the strict best). -/
def resolveReferenceGo (candidateNormalized : Str) (requestedTypeKey : Option Str) :
    List EntityResolutionAssignment → Option Nat → Option (Nat × ℚ) → Option Nat
  | [], bestAlias, bestSimilarity =>
    match bestAlias with
    | some i => some i
    | none =>
      match bestSimilarity with
      | some (i, _) => some i
      | none => none
  | a :: rest, bestAlias, bestSimilarity =>
    if requestedTypeKey.isSome && some (typeKey a.type_label) ≠ requestedTypeKey then
      resolveReferenceGo candidateNormalized requestedTypeKey rest bestAlias bestSimilarity
    else
      let aliases := ((a.known_aliases.map normalize_entity_text).filter (fun n => n ≠ [])).dedup
      if aliases.isEmpty then
        resolveReferenceGo candidateNormalized requestedTypeKey rest bestAlias bestSimilarity
      else if candidateNormalized = normalize_entity_text a.canonical_name then
        some a.canonical_cluster_index
      else if aliases.contains candidateNormalized then
        resolveReferenceGo candidateNormalized requestedTypeKey rest
          (some a.canonical_cluster_index) bestSimilarity
      else
        let score := (aliases.map (fun al => string_similarity candidateNormalized al)).foldl pyMax 0
        if (94 : ℚ) / 100 ≤ score &&
            (bestSimilarity.isNone || bestSimilarity.any (fun bs => bs.2 < score)) then
          resolveReferenceGo candidateNormalized requestedTypeKey rest bestAlias (some (a.canonical_cluster_index, score))
        else
          resolveReferenceGo candidateNormalized requestedTypeKey rest bestAlias bestSimilarity

/-- `EntityResolutionPlan.resolve_reference`. -/
def resolve_reference (plan : EntityResolutionPlan) (name : Str)
    (typeLabel : Option Str := none) : Option Nat :=
  let candidateNormalized := normalize_entity_text name
  if candidateNormalized = [] then none
  else
    resolveReferenceGo candidateNormalized (typeLabel.map (fun t => typeKey (some t)))
      plan.assignments none none

/-!
## `schema/predicate_registry.py`

`PredicateRegistryEntry` rows are modelled without their timestamp columns
(`first_seen_at` / `last_seen_at`), which no claim observes; `_touch_entry`
therefore just bumps `frequency`.
-/

/-- The characters of `str.strip(" \t\r\n.,:;\"'")`. -/
def predStripChar (c : Char) : Bool :=
  c = ' ' || c = '\t' || c = '\r' || c = '\n' || c = '.' || c = ',' || c = ':' || c = ';' ||
    c = Char.ofNat 34 || c = Char.ofNat 39

/-- `_singularize_token`. -/
def singularizeToken (token : Str) : Str :=
  if token.length ≤ 4 then token
  else if "ies".toList.isSuffixOf token && 4 < token.length then token.take (token.length - 3) ++ ['y']
  else if "ss".toList.isSuffixOf token || "us".toList.isSuffixOf token ||
      "is".toList.isSuffixOf token then token
  else if "s".toList.isSuffixOf token then token.take (token.length - 1)
  else token

/-- `_singularize_last_token`: singularize the part after the last underscore. -/
def singularizeLastToken (value : Str) : Str :=
  if value.contains '_' then
    let tail := (value.reverse.takeWhile (fun c => c ≠ '_')).reverse
    let head := value.take (value.length - tail.length - 1)
    head ++ '_' :: singularizeToken tail
  else singularizeToken value

/-- `normalize_predicate_label`: collapse whitespace, trim punctuation,
lowercase, snake-case (`[^a-z0-9]+ → _`, trimmed), singularize the last token. -/
def normalize_predicate_label (value : Str) : Str :=
  if value = [] then []
  else
    let cleaned := stripEnds predStripChar (collapseRuns isPySpace ' ' value)
    if cleaned = [] then []
    else
      let lowered := pyLower cleaned
      let normalized :=
        stripEnds (fun c => c = '_') (collapseRuns (fun c => !isLowerAlnum c) '_' lowered)
      singularizeLastToken normalized

structure PredicateRegistryEntry where
  id : Nat
  kind : Str
  predicate : Str
  aliases_json : List Str := []
  frequency : Nat := 1
deriving DecidableEq, Repr

structure PredicateRegistryDecision where
  canonical_predicate : Str
  kind : Str
  reason : Str
  created_new : Bool
  matched_existing : Bool
  registry_entry_id : Option Nat := none
deriving DecidableEq, Repr

/-- Registry DB state: the stored rows and the next autoincrement id. -/
structure RegistryState where
  entries : List PredicateRegistryEntry := []
  nextId : Nat := 1
deriving DecidableEq, Repr

/-- `_touch_entry` (timestamps not modelled). -/
def touchEntry (e : PredicateRegistryEntry) : PredicateRegistryEntry :=
  { e with frequency := e.frequency + 1 }

/-- `_append_alias`. -/
def appendAlias (e : PredicateRegistryEntry) (alias1 : Str) : PredicateRegistryEntry :=
  if alias1 = e.predicate then e
  else
    let aliases := (e.aliases_json.map normalize_predicate_label).filter (fun a => a ≠ [])
    let aliases := if aliases.contains alias1 then aliases else aliases ++ [alias1]
    { e with aliases_json := sortStr aliases.dedup }

/-- Replace the row with the given id. -/
def updateEntry (entries : List PredicateRegistryEntry) (id : Nat)
    (f : PredicateRegistryEntry → PredicateRegistryEntry) : List PredicateRegistryEntry :=
  entries.map (fun e => if e.id = id then f e else e)

/-- `PredicateRegistry.register`: returns the decision and the updated state.
The candidate scan runs over the entries of the kind ordered by
`(frequency desc, predicate asc)`, as in the SQL query. -/
def register (state : RegistryState) (value : Str) (kind : Str) :
    PredicateRegistryDecision × RegistryState :=
  let normalized₀ := normalize_predicate_label value
  let normalized :=
    if normalized₀ = [] then
      if kind = "fact_predicate".toList then "unknown_predicate".toList
      else "unknown_relation".toList
    else normalized₀
  let existingEntries := pySorted
    (fun e₁ e₂ => e₂.frequency < e₁.frequency ||
      (e₁.frequency = e₂.frequency && strLeB e₁.predicate e₂.predicate))
    (state.entries.filter (fun e => e.kind = kind))
  match existingEntries.find? (fun e => e.predicate = normalized) with
  | some exact =>
    (⟨exact.predicate, kind, "exact_predicate_match".toList, false, true, some exact.id⟩,
      { state with entries := updateEntry state.entries exact.id touchEntry })
  | none =>
    match existingEntries.find?
        (fun e => (e.aliases_json.map normalize_predicate_label).contains normalized) with
    | some aliasEntry =>
      (⟨aliasEntry.predicate, kind, "alias_match".toList, false, true, some aliasEntry.id⟩,
        { state with
          entries := updateEntry state.entries aliasEntry.id
            (fun e => appendAlias (touchEntry e) normalized) })
    | none =>
      let bestSimilarity := existingEntries.foldl
        (fun (best : Option (PredicateRegistryEntry × ℚ)) e =>
          let score := ((e.aliases_json.map
              (fun a => string_similarity normalized a)).foldl pyMax
            (string_similarity normalized e.predicate))
          if (96 : ℚ) / 100 ≤ score && (best.isNone || best.any (fun b => b.2 < score)) then
            some (e, score)
          else best)
        none
      match bestSimilarity with
      | some (matchedEntry, _score) =>
        (⟨matchedEntry.predicate, kind, "similarity_threshold_match".toList, false, true,
            some matchedEntry.id⟩,
          { state with
            entries := updateEntry state.entries matchedEntry.id
              (fun e => appendAlias (touchEntry e) normalized) })
      | none =>
        let newEntry : PredicateRegistryEntry :=
          { id := state.nextId, kind := kind, predicate := normalized }
        (⟨normalized, kind, "new_registry_entry".toList, true, false, some state.nextId⟩,
          { entries := state.entries ++ [newEntry], nextId := state.nextId + 1 })

/-!
## Global entity matching (`services/extraction.py`)

Persisted `Entity` rows are modelled with the columns this code reads
(`type` is spelled `etype`).  The candidate pool — the bounded most-recent-first
DB query over unmerged entities of other conversations — is passed in as a list
of entity ids over an explicit store, and in-place ORM mutation becomes store
update; `canonical_entity_by_cluster` is an association list whose item
snapshot drives the loop, as `list(....items())` does.
-/

structure DbEntity where
  id : Nat
  conversation_id : Str := []
  name : Str
  canonical_name : Str
  etype : Str := []
  type_label : Option Str := none
  aliases_json : List Str := []
  known_aliases_json : List Str := []
  merged_into_id : Option Nat := none
  resolution_reason : Option Str := none
  resolution_confidence : Option Score := none
  embedding : Option (List ℚ) := none
deriving DecidableEq, Repr

/-- `_alias_key`: `" ".join(value.lower().split())`. -/
def aliasKey (value : Str) : Str :=
  List.intercalate [' '] (pySplitWs (pyLower value))

/-- `_merge_aliases`: ordered union with case/whitespace-insensitive dedupe. -/
def mergeAliases (existing incoming : List Str) : List Str :=
  ((existing ++ incoming).foldl
    (fun (acc : List Str × List Str) value =>
      let clean := List.intercalate [' '] (pySplitWs (stripEnds isPySpace value))
      let key := aliasKey clean
      if clean = [] || key = [] || acc.1.contains key then acc
      else (acc.1 ++ [key], acc.2 ++ [clean]))
    ([], [])).2

/-- `_entity_aliases`. -/
def entityAliases (e : DbEntity) : List Str :=
  mergeAliases e.known_aliases_json (e.name :: e.canonical_name :: e.aliases_json)

/-- `_best_alias_similarity`. -/
def bestAliasSimilarity (leftAliases rightAliases : List Str) : ℚ :=
  leftAliases.foldl
    (fun best la =>
      let leftNorm := normalize_entity_text la
      if leftNorm = [] then best
      else
        rightAliases.foldl
          (fun b ra =>
            let rightNorm := normalize_entity_text ra
            if rightNorm = [] then b else pyMax b (string_similarity leftNorm rightNorm))
          best)
    0

/-- The lexicographically smallest of a nonempty token list (`sorted(...)[0]`). -/
def minStr (l : List Str) : Str :=
  l.foldl (fun m t => if strLtB t m then t else m) (l.headD [])

/-- `_coarse_name_gate`: token overlap, or equal leading character of the two
lexicographically-first tokens. -/
def coarseNameGate (leftName rightName : Str) : Bool :=
  let leftTokens := pySplitWs (normalize_entity_text leftName)
  let rightTokens := pySplitWs (normalize_entity_text rightName)
  if leftTokens.isEmpty || rightTokens.isEmpty then false
  else if leftTokens.any (fun t => rightTokens.contains t) then true
  else
    let leftPrimary := minStr leftTokens
    let rightPrimary := minStr rightTokens
    leftPrimary ≠ [] && rightPrimary ≠ [] && leftPrimary.take 1 = rightPrimary.take 1

/-- `entity.type_label or entity.type` (Python `or`: empty string falls back). -/
def typeLabelOrType (e : DbEntity) : Str :=
  match e.type_label with
  | some t => if t = [] then e.etype else t
  | none => e.etype

/-- `_build_entity_embedding_text`. -/
def buildEntityEmbeddingText (canonicalName : Str) (typeLabel : Str) (aliases : List Str) :
    Str :=
  let aliasText := List.intercalate ", ".toList
    (sortStr ((aliases.map (stripEnds isPySpace)).filter (fun a => a ≠ [])).dedup)
  let base := stripEnds isPySpace canonicalName
  let base := if typeLabel ≠ [] then base ++ " :: ".toList ++ stripEnds isPySpace typeLabel
    else base
  if aliasText ≠ [] then base ++ " :: aliases: ".toList ++ aliasText else base

/-- `_entity_embedding_vector`: the stored embedding, else the deterministic
hash embedding of the entity text. -/
def entityEmbeddingVector (e : DbEntity) : EVec :=
  match ensure_embedding e.embedding with
  | some existing => ⟨existing, 1⟩
  | none =>
    hash_embed_text
      (buildEntityEmbeddingText e.canonical_name (typeLabelOrType e) e.known_aliases_json)

/-- The candidate scan of `_find_best_global_entity_match` (early returns for
the exact/alias/string rules; best tracked for embeddings; single best
borderline resolved through the LLM oracle after the scan). -/
def findBestGlobalGo (store : List DbEntity) (localE : DbEntity) (localType : Str)
    (localAliases : List Str) (localAliasKeys : List Str) (localEmbedding : EVec) :
    List Nat → Option (Nat × Str × Score) → Option (Nat × Score) → Option (Nat × Str × Score)
  | [], bestMatch, borderline =>
    match bestMatch with
    | some b => some b
    | none =>
      match borderline with
      | some (cid, similarity) =>
        match store.find? (fun e => e.id = cid) with
        | some cand =>
          if llm_entity_disambiguation localE.canonical_name (entityAliases localE)
              cand.canonical_name (entityAliases cand) then
            some (cid, "global_llm_disambiguation".toList, Score.pyMax similarity (.rat (85 / 100)))
          else none
        | none => none
      | none => none
  | cid :: rest, bestMatch, borderline =>
    match store.find? (fun e => e.id = cid) with
    | none => findBestGlobalGo store localE localType localAliases localAliasKeys localEmbedding
        rest bestMatch borderline
    | some cand =>
      let candType := pyLower (stripEnds isPySpace (typeLabelOrType cand))
      if localType ≠ [] && candType ≠ [] && localType ≠ candType then
        findBestGlobalGo store localE localType localAliases localAliasKeys localEmbedding
          rest bestMatch borderline
      else if aliasKey localE.canonical_name = aliasKey cand.canonical_name then
        some (cid, "global_exact_canonical_match".toList, .rat 1)
      else
        let candAliasKeys := (((entityAliases cand).map aliasKey).filter (fun k => k ≠ [])).dedup
        if localAliasKeys.any (fun k => candAliasKeys.contains k) then
          some (cid, "global_alias_match".toList, .rat (99 / 100))
        else if !coarseNameGate localE.canonical_name cand.canonical_name then
          findBestGlobalGo store localE localType localAliases localAliasKeys localEmbedding
            rest bestMatch borderline
        else
          let similarity := bestAliasSimilarity localAliases (entityAliases cand)
          if (96 : ℚ) / 100 ≤ similarity then
            some (cid, "global_string_similarity".toList, .rat similarity)
          else
            let embeddingSimilarity :=
              cosine_similarity (some localEmbedding) (some (entityEmbeddingVector cand))
            if Score.le (.rat (92 / 100)) embeddingSimilarity then
              findBestGlobalGo store localE localType localAliases localAliasKeys localEmbedding
                rest
                (if bestMatch.isNone ||
                    bestMatch.any (fun b => Score.lt b.2.2 embeddingSimilarity) then
                  some (cid, "global_embedding_similarity".toList, embeddingSimilarity)
                 else bestMatch)
                borderline
            else if Score.le (.rat (84 / 100)) embeddingSimilarity &&
                Score.lt embeddingSimilarity (.rat (92 / 100)) then
              findBestGlobalGo store localE localType localAliases localAliasKeys localEmbedding
                rest bestMatch
                (if borderline.isNone || borderline.any (fun b => Score.lt b.2 embeddingSimilarity)
                 then some (cid, embeddingSimilarity)
                 else borderline)
            else
              findBestGlobalGo store localE localType localAliases localAliasKeys localEmbedding
                rest bestMatch borderline

/-- `_find_best_global_entity_match`. -/
def findBestGlobalEntityMatch (store : List DbEntity) (localE : DbEntity)
    (candidateIds : List Nat) : Option (Nat × Str × Score) :=
  let localType := pyLower (stripEnds isPySpace (typeLabelOrType localE))
  let localAliases := entityAliases localE
  let localAliasKeys := ((localAliases.map aliasKey).filter (fun k => k ≠ [])).dedup
  findBestGlobalGo store localE localType localAliases localAliasKeys
    (entityEmbeddingVector localE) candidateIds none none

structure EntityMergeAudit where
  conversation_id : Str
  survivor_entity_id : Nat
  merged_entity_ids : List Nat
  reason_for_merge : Str
  confidence : Score
  resolver_version : Str
  merge_scope : Str
  survivor_canonical_name : Str
  merged_name : Str
deriving DecidableEq, Repr

def RESOLVER_VERSION : Str := "phase2-v1".toList

structure GlobalMatchState where
  store : List DbEntity
  canonicalByCluster : List (Nat × Nat)
  candidates : List Nat
  audits : List EntityMergeAudit
deriving DecidableEq, Repr

/-- Update the entity with the given id in the store. -/
def updateDbEntity (store : List DbEntity) (id : Nat) (f : DbEntity → DbEntity) :
    List DbEntity :=
  store.map (fun e => if e.id = id then f e else e)

/-- One acceptance of `_apply_global_entity_matching`: point the local entity at
the survivor, union-merge aliases into the survivor, substitute the survivor
into `canonical_entity_by_cluster`, append the merged local entity to the
candidate list and append the audit row. -/
def acceptGlobalMerge (st : GlobalMatchState) (conversationId : Str) (clusterIndex : Nat)
    (localCanonical survivor : DbEntity) (reason : Str) (confidence : Score) :
    GlobalMatchState :=
  let store := updateDbEntity st.store localCanonical.id (fun e =>
    { e with
      merged_into_id := some survivor.id
      resolution_reason := some reason
      resolution_confidence := some confidence })
  let store := updateDbEntity store survivor.id (fun e =>
    { e with
      known_aliases_json :=
        mergeAliases e.known_aliases_json
          (survivor.name :: localCanonical.name :: localCanonical.known_aliases_json) })
  { store := store
    canonicalByCluster := st.canonicalByCluster.map
      (fun p => if p.1 = clusterIndex then (p.1, survivor.id) else p)
    candidates := st.candidates ++ [localCanonical.id]
    audits := st.audits ++
      [{ conversation_id := conversationId
         survivor_entity_id := survivor.id
         merged_entity_ids := [localCanonical.id]
         reason_for_merge := reason
         confidence := confidence
         resolver_version := RESOLVER_VERSION
         merge_scope := "global".toList
         survivor_canonical_name := survivor.canonical_name
         merged_name := localCanonical.name }] }

/-- `_apply_global_entity_matching`: iterate the snapshot of the cluster→entity
items, matching each local canonical entity against the evolving candidate
pool. -/
def applyGlobalEntityMatching (store : List DbEntity) (conversationId : Str)
    (canonicalByCluster : List (Nat × Nat)) (candidates : List Nat) : GlobalMatchState :=
  canonicalByCluster.foldl
    (fun st item =>
      match st.store.find? (fun e => e.id = item.2) with
      | none => st
      | some localCanonical =>
        match findBestGlobalEntityMatch st.store localCanonical st.candidates with
        | none => st
        | some (survivorId, reason, confidence) =>
          if survivorId = localCanonical.id then st
          else
            match st.store.find? (fun e => e.id = survivorId) with
            | none => st
            | some survivor =>
              acceptGlobalMerge st conversationId item.1 localCanonical survivor reason
                confidence)
    ⟨store, canonicalByCluster, candidates, []⟩

/-!
## `services/schema_stabilization.py`

One label registry (`SchemaField` / `SchemaRelation` / `SchemaNode` all share the
shape this code reads) is modelled by `SchemaRow`s; `_stabilize_model` is the
per-registry pass of `run_schema_stabilization`.  `stats_json` is the JSON
object as an association list; proposals carry the payload fields the code
writes (the constant `table_name` string is not modelled).
-/

structure SchemaRow where
  id : Nat
  label : Str
  stats_json : Option (List (Str × Int)) := none
  canonical_of_id : Option Nat := none
  embedding : Option (List ℚ) := none
deriving DecidableEq, Repr

/-- `int((row.stats_json or {}).get("observations", 0))`. -/
def obsOf (r : SchemaRow) : Int :=
  match r.stats_json with
  | none => 0
  | some kvs => ((kvs.find? (fun kv => kv.1 = "observations".toList)).map (fun kv => kv.2)).getD 0

/-- Python `label.split("_")` (single-character separator, empty parts kept). -/
def splitOnChar (sep : Char) : Str → Str → List Str
  | [], acc => [acc.reverse]
  | c :: rest, acc =>
    if c = sep then acc.reverse :: splitOnChar sep rest []
    else splitOnChar sep rest (c :: acc)

/-- The number of nonempty underscore-separated tokens of a label. -/
def underscoreTokenCount (label : Str) : Nat :=
  ((splitOnChar '_' label []).filter (fun t => t ≠ [])).length

/-- `_label_specificity`: `(-token_count, -len(label))`. -/
def labelSpecificity (label : Str) : Int × Int :=
  (-(underscoreTokenCount label : Int), -(label.length : Int))

/-- Python `<` on `(Int × Int)` pairs (lexicographic). -/
def specLt (x y : Int × Int) : Bool := x.1 < y.1 || (x.1 = y.1 && x.2 < y.2)

/-- Python `<=` on the `((−tokens, −len), label.lower(), id)` rank tuples. -/
def rankLe (x y : (Int × Int) × Str × Nat) : Bool :=
  specLt x.1 y.1 ||
    (x.1 = y.1 &&
      (strLtB x.2.1 y.2.1 || (x.2.1 = y.2.1 && x.2.2 ≤ y.2.2)))

/-- `_choose_canonical`: `(canonical, merged)`. -/
def chooseCanonical (left right : SchemaRow) : SchemaRow × SchemaRow :=
  let leftObs := obsOf left
  let rightObs := obsOf right
  if leftObs ≠ rightObs then (if rightObs < leftObs then (left, right) else (right, left))
  else
    let leftRank := (labelSpecificity left.label, pyLower left.label, left.id)
    let rightRank := (labelSpecificity right.label, pyLower right.label, right.id)
    if rankLe leftRank rightRank then (left, right) else (right, left)

/-- `_pair_key`. -/
def pairKey (leftId rightId : Nat) : Nat × Nat :=
  if leftId < rightId then (leftId, rightId) else (rightId, leftId)

structure SchemaProposal where
  proposal_type : Str
  canonical_id : Nat
  canonical_label : Str
  merged_id : Nat
  merged_label : Str
  confidence : Score
  method : Str
  conversation_id : Option Str
  status : Str
deriving DecidableEq, Repr

/-- `_existing_pair_keys`. -/
def existingPairKeys (proposals : List SchemaProposal) (proposalType : Str) :
    List (Nat × Nat) :=
  (proposals.filter (fun p => p.proposal_type = proposalType)).map
    (fun p => pairKey p.canonical_id p.merged_id)

/-- `_is_canonicalized`. -/
def isCanonicalized (r : SchemaRow) : Bool := r.canonical_of_id.isSome

/-- `_schema_similarity`: the larger of string similarity and embedding cosine,
with the method that produced it. -/
def schemaSimilarity (left right : SchemaRow) : Score × Str :=
  let stringScore := string_similarity left.label right.label
  let embeddingScore := cosine_similarity
    ((ensure_embedding left.embedding).map (fun v => (⟨v, 1⟩ : EVec)))
    ((ensure_embedding right.embedding).map (fun v => (⟨v, 1⟩ : EVec)))
  if Score.lt (.rat stringScore) embeddingScore then (embeddingScore, "embedding_cosine_v1".toList)
  else (.rat stringScore, "string_similarity_v1".toList)

structure StabState where
  rows : List SchemaRow
  proposals : List SchemaProposal
deriving DecidableEq, Repr

def updateSchemaRow (rows : List SchemaRow) (id : Nat) (f : SchemaRow → SchemaRow) :
    List SchemaRow :=
  rows.map (fun r => if r.id = id then f r else r)

/-- One candidate pair of the `_stabilize_model` loop. -/
def stabilizePairStep (proposalType : Str) (conversationId : Option Str)
    (acc : StabState × List (Nat × Nat) × Nat × Nat) (ids : Nat × Nat) :
    StabState × List (Nat × Nat) × Nat × Nat :=
  let (st, pairsSeen, created, accepted) := acc
  match st.rows.find? (fun r => r.id = ids.1), st.rows.find? (fun r => r.id = ids.2) with
  | some left, some right =>
    if left.id = right.id then acc
    else if isCanonicalized left || isCanonicalized right then acc
    else if pairsSeen.contains (pairKey left.id right.id) then acc
    else
      let sim := schemaSimilarity left right
      if Score.lt sim.1 (.rat (85 / 100)) then acc
      else
        let cm := chooseCanonical left right
        let status := if Score.le (.rat (95 / 100)) sim.1 then "auto_accepted".toList
          else "proposed".toList
        let proposal : SchemaProposal :=
          { proposal_type := proposalType
            canonical_id := cm.1.id
            canonical_label := cm.1.label
            merged_id := cm.2.id
            merged_label := cm.2.label
            confidence := sim.1
            method := sim.2
            conversation_id := conversationId
            status := status }
        let st := { st with proposals := st.proposals ++ [proposal] }
        let pairsSeen := pairsSeen ++ [pairKey left.id right.id]
        if status = "auto_accepted".toList then
          ({ st with
              rows := updateSchemaRow st.rows cm.2.id
                (fun r => { r with canonical_of_id := some cm.1.id }) },
            pairsSeen, created + 1, accepted + 1)
        else (st, pairsSeen, created + 1, accepted)
  | _, _ => acc

/-- `_stabilize_model`: all unordered pairs (in id order) of the
currently-uncanonicalized rows, returning the new state and
`(proposals_created, auto_accepted)`. -/
def stabilizeModel (st : StabState) (proposalType : Str) (conversationId : Option Str) :
    StabState × Nat × Nat :=
  let snapshot := (pySorted (fun a b => a.id ≤ b.id)
    (st.rows.filter (fun r => r.canonical_of_id = none))).map (fun r => r.id)
  let pairs := (snapshot.enum).flatMap
    (fun il => (snapshot.drop (il.1 + 1)).map (fun rid => (il.2, rid)))
  let result := pairs.foldl (stabilizePairStep proposalType conversationId)
    (st, existingPairKeys st.proposals proposalType, 0, 0)
  (result.1, result.2.2.1, result.2.2.2)

/-!
## Concrete program inputs used by the claims
-/

/-- Claim C1 pool entity: survivor "sierra" already knowing the alias "bravo". -/
def c1Sierra : DbEntity where
  id := 10
  conversation_id := "conv-x".toList
  name := "sierra".toList
  canonical_name := "sierra".toList
  type_label := some "company".toList
  known_aliases_json := ["bravo".toList]

/-- Claim C1 local canonical of cluster 0: named "bravo" (merging into "sierra"
by alias), canonicalized "zulu". -/
def c1Bravo : DbEntity where
  id := 20
  conversation_id := "conv-y".toList
  name := "bravo".toList
  canonical_name := "zulu".toList
  type_label := some "company".toList

/-- Claim C1 local canonical of cluster 1: "zulu", exactly matching the
already-merged entity's canonical name. -/
def c1Zulu : DbEntity where
  id := 21
  conversation_id := "conv-y".toList
  name := "zulu".toList
  canonical_name := "zulu".toList
  type_label := some "company".toList

/-- Claim C1 run: batch with local canonicals 20 and 21 against pool `[10]`. -/
def c1Run : GlobalMatchState :=
  applyGlobalEntityMatching [c1Sierra, c1Bravo, c1Zulu] "conv-y".toList
    [(0, 20), (1, 21)] [10]

/-- Claim C3 persisted entity A. -/
def c3EntityA : DbEntity where
  id := 1
  conversation_id := "conv-x".toList
  name := "Apple Inc.".toList
  canonical_name := "Apple Inc.".toList
  type_label := some "Company".toList
  known_aliases_json := ["AAPL".toList, "Apple".toList]

/-- Claim C3 later batch entity B. -/
def c3EntityB : DbEntity where
  id := 2
  conversation_id := "conv-y".toList
  name := "AAPL".toList
  canonical_name := "AAPL".toList
  type_label := some "Company".toList

/-- Claim C3 run: B (cluster 0) against the pool containing A. -/
def c3Run : GlobalMatchState :=
  applyGlobalEntityMatching [c3EntityA, c3EntityB] "conv-y".toList [(0, 2)] [1]

/-- Claims C4/C6 batches. -/
def c4Delta : ExtractedEntity := { name := "delta".toList, type_label := some "co".toList }

def c4Apple : ExtractedEntity := { name := "apple".toList, type_label := some "co".toList }

def c4AppleDelta : ExtractedEntity :=
  { name := "apple".toList, type_label := some "co".toList, aliases := ["delta".toList] }

def c4Plan : EntityResolutionPlan := resolve [c4Delta, c4Apple, c4AppleDelta]

def c6Entity : ExtractedEntity :=
  { name := "AAPL".toList, aliases := ["Apple".toList, "Apple Inc.".toList] }

def c6Plan : EntityResolutionPlan := resolve [c6Entity]

/-- Claim C5 run: three successive registrations. -/
def c5Run1 : PredicateRegistryDecision × RegistryState :=
  register {} "Reported Revenues".toList "fact_predicate".toList

def c5Run2 : PredicateRegistryDecision × RegistryState :=
  register c5Run1.2 "reported_revenue".toList "fact_predicate".toList

def c5Run3 : PredicateRegistryDecision × RegistryState :=
  register c5Run2.2 "reported_revenuee".toList "fact_predicate".toList

/-- Claim C7/C2 rows. -/
def c7ServicesRevenue : SchemaRow where
  id := 1
  label := "services_revenue".toList
  stats_json := some [("observations".toList, 5)]

def c7ServiceRevenue : SchemaRow where
  id := 2
  label := "service_revenue".toList
  stats_json := some [("observations".toList, 2)]

def c7Run1 : StabState × Nat × Nat :=
  stabilizeModel ⟨[c7ServicesRevenue, c7ServiceRevenue], []⟩ "merge_fields".toList
    (some "conv".toList)

def c7Run2 : StabState × Nat × Nat :=
  stabilizeModel c7Run1.1 "merge_fields".toList (some "conv-rerun".toList)

/-- Claim C2 rows: equal observation counts, different token counts. -/
def c2TotalRevenue : SchemaRow where
  id := 1
  label := "total_revenue".toList
  stats_json := some [("observations".toList, 3)]

def c2Revenue : SchemaRow where
  id := 2
  label := "revenue".toList
  stats_json := some [("observations".toList, 3)]

/-- A match confidence is exactly `1.0` or lies strictly below it (every score
the resolver produces satisfies this; used to reason about the running
maximum in the cluster scan). -/
def ConfOK (s : Score) : Prop :=
  s = .rat 1 ∨ (Score.le s (.rat 1) = true ∧ Score.le (.rat 1) s = false)

/-- Claim C4 witness batch: two identically named entities of one type. -/
def c4wApple : ExtractedEntity := { name := "apple".toList, type_label := some "co".toList }

def c4wApple2 : ExtractedEntity := { name := "apple".toList, type_label := some "co".toList }

/-!
## Range lemmas for the similarity engine
-/

theorem flmCandidates_mem {alo ahi blo bhi : Nat} {t : Nat × Nat × Nat}
    (h : t ∈ flmCandidates alo ahi blo bhi) :
    alo ≤ t.1 ∧ t.1 + t.2.2 ≤ ahi ∧ blo ≤ t.2.1 ∧ t.2.1 + t.2.2 ≤ bhi ∧ 1 ≤ t.2.2 := by
  unfold flmCandidates at h
  simp only [List.mem_flatMap, List.mem_map, List.mem_range] at h
  obtain ⟨k, ⟨d, hd, hk⟩, di, hdi, dj, hdj, ht⟩ := h
  subst ht
  simp only []
  omega

theorem findLongestMatch_bounds {a b : Str} {alo ahi blo bhi : Nat}
    (h : (findLongestMatch a b alo ahi blo bhi).2.2 ≠ 0) :
    alo ≤ (findLongestMatch a b alo ahi blo bhi).1 ∧
    (findLongestMatch a b alo ahi blo bhi).1 + (findLongestMatch a b alo ahi blo bhi).2.2 ≤ ahi ∧
    blo ≤ (findLongestMatch a b alo ahi blo bhi).2.1 ∧
    (findLongestMatch a b alo ahi blo bhi).2.1 + (findLongestMatch a b alo ahi blo bhi).2.2 ≤ bhi := by
  unfold findLongestMatch at *
  cases hf : (flmCandidates alo ahi blo bhi).find? (fun t => segEq a b t.1 t.2.1 t.2.2) with
  | none => simp [hf] at h
  | some t =>
    have hmem := List.mem_of_find?_eq_some hf
    have := flmCandidates_mem hmem
    simp only [hf]
    exact ⟨this.1, this.2.1, this.2.2.1, this.2.2.2.1⟩

theorem matchTotal_le (a b : Str) :
    ∀ fuel alo ahi blo bhi, matchTotal a b fuel alo ahi blo bhi ≤ min (ahi - alo) (bhi - blo) := by
  intro fuel
  induction fuel with
  | zero => intro alo ahi blo bhi; simp [matchTotal]
  | succ n ih =>
    intro alo ahi blo bhi
    simp only [matchTotal]
    split
    · omega
    · rename_i hk
      have hb := findLongestMatch_bounds (a := a) (b := b) hk
      have h₁ := ih alo (findLongestMatch a b alo ahi blo bhi).1 blo
        (findLongestMatch a b alo ahi blo bhi).2.1
      have h₂ := ih ((findLongestMatch a b alo ahi blo bhi).1 +
          (findLongestMatch a b alo ahi blo bhi).2.2) ahi
        ((findLongestMatch a b alo ahi blo bhi).2.1 +
          (findLongestMatch a b alo ahi blo bhi).2.2) bhi
      omega

theorem seqRatio_nonneg (a b : Str) : 0 ≤ seqRatio a b := by
  unfold seqRatio
  dsimp only
  split
  · norm_num
  · positivity

theorem seqRatio_le_one (a b : Str) : seqRatio a b ≤ 1 := by
  unfold seqRatio
  dsimp only
  split
  · norm_num
  · rename_i h
    have hpos : (0 : ℚ) < (a.length : ℚ) + (b.length : ℚ) := by
      have : 0 < a.length + b.length := Nat.pos_of_ne_zero h
      exact_mod_cast this
    rw [div_le_one hpos]
    have hm := matchTotal_le a b (a.length + b.length) 0 a.length 0 b.length
    have : 2 * matchTotal a b (a.length + b.length) 0 a.length 0 b.length ≤
        a.length + b.length := by omega
    exact_mod_cast this

theorem setInterCard_le_setUnionCard (l r : List Str) : setInterCard l r ≤ setUnionCard l r := by
  unfold setInterCard setUnionCard
  calc (l.dedup.filter (fun t => r.contains t)).length ≤ l.dedup.length :=
        List.length_filter_le _ _
    _ = l.toFinset.card := (List.card_toFinset l).symm
    _ ≤ (l ++ r).toFinset.card := by
        rw [List.toFinset_append]
        exact Finset.card_le_card Finset.subset_union_left
    _ = (l ++ r).dedup.length := List.card_toFinset _

theorem token_set_similarity_nonneg (a b : Str) : 0 ≤ token_set_similarity a b := by
  unfold token_set_similarity
  dsimp only
  split
  · norm_num
  · split
    · norm_num
    · positivity

theorem token_set_similarity_le_one (a b : Str) : token_set_similarity a b ≤ 1 := by
  unfold token_set_similarity
  dsimp only
  split
  · norm_num
  · split
    · norm_num
    · rename_i hu
      rw [div_le_one (by positivity)]
      exact_mod_cast setInterCard_le_setUnionCard _ _

theorem pyMax_le {a b c : ℚ} (ha : a ≤ c) (hb : b ≤ c) : pyMax a b ≤ c := by
  unfold pyMax; split <;> assumption

theorem le_pyMax_left (a b : ℚ) : a ≤ pyMax a b := by
  unfold pyMax
  split
  · linarith
  · exact le_rfl

theorem string_similarity_nonneg (a b : Str) : 0 ≤ string_similarity a b := by
  unfold string_similarity
  dsimp only
  split
  · norm_num
  · split
    · norm_num
    · exact le_trans (seqRatio_nonneg _ _) (le_pyMax_left _ _)

theorem string_similarity_le_one (a b : Str) : string_similarity a b ≤ 1 := by
  unfold string_similarity
  dsimp only
  split
  · norm_num
  · split
    · norm_num
    · exact pyMax_le (seqRatio_le_one _ _) (token_set_similarity_le_one _ _)

/-!
## Claim C9 — `string_similarity` case behaviour, range, and asymmetry
-/

/-- Claim C9 (counterexample): `string_similarity` is **not** symmetric — the
difflib sequence ratio depends on the argument order: `("ab", "bacb")` scores
`2/3` one way and `1/3` the other (the greedy longest-match total differs). -/
theorem C9_string_similarity_not_symmetric :
    string_similarity "ab".toList "bacb".toList = 2 / 3 ∧
    string_similarity "bacb".toList "ab".toList = 1 / 3 ∧
    string_similarity "ab".toList "bacb".toList ≠
      string_similarity "bacb".toList "ab".toList := by decide

/-- Claim C9 (amended): `string_similarity(a, b)` lies in `[0, 1]`; it is `1.0`
when the normalized forms of `a` and `b` are equal and non-empty, `0.0` when
either normalizes to the empty string, and otherwise the maximum of the
sequence ratio and the token-set Jaccard of the normalized forms.  (The
symmetry half of the original claim is false, by
`C9_string_similarity_not_symmetric`.) -/
theorem C9_string_similarity_range_and_cases (a b : Str) :
    0 ≤ string_similarity a b ∧ string_similarity a b ≤ 1 ∧
    (normalize_entity_text a = [] ∨ normalize_entity_text b = [] →
      string_similarity a b = 0) ∧
    (normalize_entity_text a = normalize_entity_text b → normalize_entity_text a ≠ [] →
      string_similarity a b = 1) ∧
    (normalize_entity_text a ≠ normalize_entity_text b → normalize_entity_text a ≠ [] →
      normalize_entity_text b ≠ [] →
      string_similarity a b =
        pyMax (seqRatio (normalize_entity_text a) (normalize_entity_text b))
          (token_set_similarity (normalize_entity_text a) (normalize_entity_text b))) := by
  refine ⟨string_similarity_nonneg a b, string_similarity_le_one a b, ?_, ?_, ?_⟩
  · intro h
    unfold string_similarity
    dsimp only
    rw [if_pos]
    rcases h with h | h <;> simp [h]
  · intro heq hne
    unfold string_similarity
    dsimp only
    rw [if_neg, if_pos heq]
    rw [← heq]
    simp [hne]
  · intro hne ha hb
    unfold string_similarity
    dsimp only
    rw [if_neg, if_neg hne]
    simp [ha, hb]

/-- Claim C9 (witness): the amended theorem applied at "Apple Inc." /
"apple inc" (equal non-empty normalization) and at "apple" / "delta". -/
theorem C9_string_similarity_witness :
    string_similarity "Apple Inc.".toList "apple inc".toList = 1 ∧
    string_similarity "apple".toList "delta".toList =
      pyMax (seqRatio (normalize_entity_text "apple".toList)
          (normalize_entity_text "delta".toList))
        (token_set_similarity (normalize_entity_text "apple".toList)
          (normalize_entity_text "delta".toList)) :=
  ⟨(C9_string_similarity_range_and_cases "Apple Inc.".toList "apple inc".toList).2.2.2.1
      (by decide) (by decide),
    (C9_string_similarity_range_and_cases "apple".toList "delta".toList).2.2.2.2
      (by decide) (by decide) (by decide)⟩

/-!
## Claim C8 — `embed_texts_with_fallback`
-/

/-- Claim C8: `embed_texts_with_fallback` returns exactly one vector per input
text, in input order (the success path maps the client's vectors positionally
through `_normalize_embedding`, the fallback path maps `hash_embed_text` over
the texts); and when the client fails or returns a wrong vector count, every
returned vector is the deterministic hash embedding — never a mix. -/
theorem C8_embed_texts_with_fallback_total_fallback (texts : List Str) (client : EmbClient) :
    (embed_texts_with_fallback texts client).length = texts.length ∧
    (∀ err, client texts = .error err →
      embed_texts_with_fallback texts client = texts.map (fun t => hash_embed_text t)) ∧
    (∀ vectors, client texts = .ok vectors → vectors.length ≠ texts.length →
      embed_texts_with_fallback texts client = texts.map (fun t => hash_embed_text t)) ∧
    (∀ vectors, client texts = .ok vectors → vectors.length = texts.length →
      embed_texts_with_fallback texts client =
        vectors.map (fun v => normalizeEmbedding ⟨v, 1⟩)) := by
  refine ⟨?_, ?_, ?_, ?_⟩
  · cases hc : client texts with
    | error e =>
      simp only [embed_texts_with_fallback, hashClientEmbedTexts, hc]
      split
      · rename_i h
        simp [List.isEmpty_iff.mp h]
      · simp
    | ok vectors =>
      simp only [embed_texts_with_fallback, hashClientEmbedTexts, hc]
      split
      · rename_i h
        simp [List.isEmpty_iff.mp h]
      · split
        · simp
        · rename_i hlen
          rw [List.length_map]
          exact not_not.mp hlen
  · intro err herr
    simp only [embed_texts_with_fallback, hashClientEmbedTexts, herr]
    split
    · rename_i h
      simp [List.isEmpty_iff.mp h]
    · rfl
  · intro vectors hok hlen
    simp only [embed_texts_with_fallback, hashClientEmbedTexts, hok]
    split
    · rename_i h
      simp [List.isEmpty_iff.mp h]
    · simp [hlen]
  · intro vectors hok hlen
    simp only [embed_texts_with_fallback, hashClientEmbedTexts, hok]
    split
    · rename_i h
      have h0 : texts = [] := List.isEmpty_iff.mp h
      subst h0
      have : vectors = [] := List.length_eq_zero.mp (by simpa using hlen)
      simp [this]
    · simp [hlen]

/-- Claim C8 (witness): a failing client over one text falls back to the hash
embedder; the result has one vector per text. -/
theorem C8_embed_texts_with_fallback_witness :
    (embed_texts_with_fallback ["%%%".toList] (fun _ => .error ())).length = 1 ∧
    embed_texts_with_fallback ["%%%".toList] (fun _ => .error ()) =
      ["%%%".toList].map (fun t => hash_embed_text t) :=
  ⟨(C8_embed_texts_with_fallback_total_fallback ["%%%".toList] (fun _ => .error ())).1,
    (C8_embed_texts_with_fallback_total_fallback ["%%%".toList]
      (fun _ => .error ())).2.1 () rfl⟩

/-!
## Claim C2 — `_choose_canonical`
-/

theorem strLtB_irrefl (a : Str) : strLtB a a = false := by
  induction a with
  | nil => rfl
  | cons c cs ih => simp [strLtB, ih]

theorem strLtB_asymm : ∀ {a b : Str}, strLtB a b = true → strLtB b a = false := by
  intro a
  induction a with
  | nil => intro b h; cases b <;> simp_all [strLtB]
  | cons c cs ih =>
    intro b h
    cases b with
    | nil => simp [strLtB] at h
    | cons d ds =>
      simp only [strLtB] at h ⊢
      by_cases hcd : c < d
      · have : ¬d < c := by exact fun hh => absurd hcd (by exact lt_asymm hh)
        simp [this, hcd, ne_of_lt hcd]
      · by_cases hdc : d < c
        · simp [hcd, hdc] at h
        · simp only [if_neg hcd, if_neg hdc] at h
          simp [hcd, hdc, ih h]

/-- Claim C2 (counterexample): with equal observation counts, the canonical side
is the label with **more** underscore tokens, not fewer — for
`total_revenue` (id 1) vs `revenue` (id 2), both with 3 observations, the code
canonicalizes onto `total_revenue` in either argument order, while the claim
predicts `revenue`. -/
theorem C2_choose_canonical_counterexample :
    obsOf c2TotalRevenue = obsOf c2Revenue ∧
    underscoreTokenCount c2Revenue.label < underscoreTokenCount c2TotalRevenue.label ∧
    (chooseCanonical c2TotalRevenue c2Revenue).1 = c2TotalRevenue ∧
    (chooseCanonical c2Revenue c2TotalRevenue).1 = c2TotalRevenue := by decide

/-- Claim C2 (amended): the canonical side is the label with the higher
observation count; on a tie, the label with **more** underscore-separated
tokens, then the **longer** label, then the lexicographically smaller
lowercased label, then the smaller id. -/
theorem C2_choose_canonical_order (l r : SchemaRow) :
    (obsOf r < obsOf l → chooseCanonical l r = (l, r) ∧ chooseCanonical r l = (l, r)) ∧
    (obsOf l = obsOf r → underscoreTokenCount r.label < underscoreTokenCount l.label →
      chooseCanonical l r = (l, r) ∧ chooseCanonical r l = (l, r)) ∧
    (obsOf l = obsOf r → underscoreTokenCount l.label = underscoreTokenCount r.label →
      r.label.length < l.label.length →
      chooseCanonical l r = (l, r) ∧ chooseCanonical r l = (l, r)) ∧
    (obsOf l = obsOf r → underscoreTokenCount l.label = underscoreTokenCount r.label →
      l.label.length = r.label.length → strLtB (pyLower l.label) (pyLower r.label) = true →
      chooseCanonical l r = (l, r) ∧ chooseCanonical r l = (l, r)) ∧
    (obsOf l = obsOf r → underscoreTokenCount l.label = underscoreTokenCount r.label →
      l.label.length = r.label.length → pyLower l.label = pyLower r.label →
      l.id < r.id → chooseCanonical l r = (l, r) ∧ chooseCanonical r l = (l, r)) := by
  unfold chooseCanonical rankLe specLt labelSpecificity
  refine ⟨?_, ?_, ?_, ?_, ?_⟩
  · intro hobs
    constructor
    · rw [if_pos (by omega), if_pos (by exact hobs)]
    · rw [if_pos (by omega), if_neg (by omega)]
  · intro hobs htok
    constructor
    · rw [if_neg (by omega)]
      rw [if_pos]
      simp only [Bool.or_eq_true, decide_eq_true_eq, Bool.and_eq_true]
      left; left; omega
    · rw [if_neg (by omega)]
      rw [if_neg]
      simp only [Bool.or_eq_true, decide_eq_true_eq, Bool.and_eq_true]
      push_neg
      refine ⟨⟨by omega, fun h => absurd h (by omega)⟩, fun h => absurd h (by simp; omega)⟩
  · intro hobs htok hlen
    constructor
    · rw [if_neg (by omega)]
      rw [if_pos]
      simp only [Bool.or_eq_true, decide_eq_true_eq, Bool.and_eq_true]
      left; right; exact ⟨by omega, by omega⟩
    · rw [if_neg (by omega)]
      rw [if_neg]
      simp only [Bool.or_eq_true, decide_eq_true_eq, Bool.and_eq_true]
      push_neg
      refine ⟨⟨by omega, fun _ => by omega⟩, fun h => absurd h (by simp; omega)⟩
  · intro hobs htok hlen hlex
    constructor
    · rw [if_neg (by omega)]
      rw [if_pos]
      simp only [Bool.or_eq_true, decide_eq_true_eq, Bool.and_eq_true]
      right
      refine ⟨by simp [Prod.ext_iff]; omega, ?_⟩
      left; exact hlex
    · rw [if_neg (by omega)]
      rw [if_neg]
      simp only [Bool.or_eq_true, decide_eq_true_eq, Bool.and_eq_true]
      push_neg
      refine ⟨⟨by omega, fun _ => by omega⟩, ?_⟩
      intro _
      constructor
      · rw [strLtB_asymm hlex]
        simp
      · intro hre
        exact absurd hre.symm (by
          intro hcontra
          rw [hcontra] at hlex
          rw [strLtB_irrefl] at hlex
          exact Bool.false_ne_true hlex)
  · intro hobs htok hlen hlow hid
    constructor
    · rw [if_neg (by omega)]
      rw [if_pos]
      simp only [Bool.or_eq_true, decide_eq_true_eq, Bool.and_eq_true]
      right
      refine ⟨by simp [Prod.ext_iff]; omega, ?_⟩
      right; exact ⟨hlow, by omega⟩
    · rw [if_neg (by omega)]
      rw [if_neg]
      simp only [Bool.or_eq_true, decide_eq_true_eq, Bool.and_eq_true]
      push_neg
      refine ⟨⟨by omega, fun _ => by omega⟩, ?_⟩
      intro _
      constructor
      · rw [hlow, strLtB_irrefl]
        simp
      · intro _
        omega

/-- Claim C2 (witness): the amended ordering applied at concrete rows — higher
observations win, and on ties more tokens win. -/
theorem C2_choose_canonical_order_witness :
    chooseCanonical c7ServicesRevenue c7ServiceRevenue = (c7ServicesRevenue, c7ServiceRevenue) ∧
    chooseCanonical c2TotalRevenue c2Revenue = (c2TotalRevenue, c2Revenue) :=
  ⟨((C2_choose_canonical_order c7ServicesRevenue c7ServiceRevenue).1 (by decide)).1,
    ((C2_choose_canonical_order c2TotalRevenue c2Revenue).2.1 (by decide) (by decide)).1⟩

/-!
## Claims C1 and C3 — global entity matching
-/

/-- Claim C1 (code bug): after the batch's first cluster merges its local
canonical (id 20, name "bravo", canonical "zulu") into the pool survivor
(id 10, "sierra") by alias, the code appends the **merged** entity — not the
survivor — to the candidate pool; the second cluster's entity (id 21, "zulu")
then exact-canonical-matches the already-merged entity 20 and is accepted with
it as survivor, producing the two-hop chain 21 → 20 → 10 that the specified
invariant rules out. -/
theorem C1_merged_into_chain_exceeds_one_hop :
    ((c1Run.store.find? (fun e => e.id = 21)).map (fun e => e.merged_into_id) =
      some (some 20)) ∧
    ((c1Run.store.find? (fun e => e.id = 20)).map (fun e => e.merged_into_id) =
      some (some 10)) ∧
    c1Run.candidates = [10, 20, 21] ∧
    c1Run.audits.map (fun a => a.survivor_entity_id) = [10, 20] := by decide

/-- Claim C3: entity B ("AAPL", compatible type) from a later conversation
merges into the persisted unmerged entity A (canonical "Apple Inc.", aliases
AAPL/Apple): `B.merged_into_id = A.id` with reason `global_alias_match`, one of
the two reasons the claim allows. -/
theorem C3_global_alias_merge :
    ((c3Run.store.find? (fun e => e.id = 2)).map (fun e => e.merged_into_id) =
      some (some 1)) ∧
    (∃ reason,
      (c3Run.store.find? (fun e => e.id = 2)).map (fun e => e.resolution_reason) =
        some (some reason) ∧
      (reason = "global_exact_canonical_match".toList ∨
        reason = "global_alias_match".toList)) :=
  ⟨by decide, "global_alias_match".toList, by decide, Or.inr rfl⟩

/-!
## Claim C4 — resolver clustering by name and type
-/

/-- Claim C4 (counterexample): entities 1 and 2 both normalize to "apple" with
the same type key, yet resolve assigns them to different clusters — entity 2 is
captured (at the same confidence 1.0) by the earlier "delta" cluster through
its alias, while entity 1 sits alone in cluster 1. -/
theorem C4_same_name_same_type_split_clusters :
    normalize_entity_text c4Apple.name = normalize_entity_text c4AppleDelta.name ∧
    normalize_entity_text c4Apple.name ≠ [] ∧
    typeKey c4Apple.type_label = typeKey c4AppleDelta.type_label ∧
    (c4Plan.assignments.find? (fun a => a.extracted_index = 1)).map
      (fun a => a.canonical_cluster_index) = some 1 ∧
    (c4Plan.assignments.find? (fun a => a.extracted_index = 2)).map
      (fun a => a.canonical_cluster_index) = some 0 := by decide!

/-!
## Claim C5 — predicate registry registration sequence
-/

/-- Claim C5: registering "Reported Revenues", then "reported_revenue", then
"reported_revenuee" (all `fact_predicate`) returns canonical
"reported_revenue" each time; afterwards the single matching entry has
frequency 3 and "reported_revenuee" among its aliases. -/
theorem C5_register_sequence :
    c5Run1.1.canonical_predicate = "reported_revenue".toList ∧
    c5Run2.1.canonical_predicate = "reported_revenue".toList ∧
    c5Run3.1.canonical_predicate = "reported_revenue".toList ∧
    c5Run3.2.entries.map (fun e => (e.predicate, e.frequency, e.aliases_json)) =
      [("reported_revenue".toList, 3, ["reported_revenuee".toList])] := by decide

/-!
## Claim C6 — `resolve_reference` after a single-entity resolve
-/

/-- Claim C6 (counterexample): resolving the single entity "AAPL" (aliases
Apple, "Apple Inc.") picks canonical name "AAPL" — the canonical name is chosen
among member *names* only, and aliases are not candidates — so the claimed
cluster canonical "Apple Inc." is wrong. -/
theorem C6_single_entity_canonical_is_name :
    c6Plan.assignments.map (fun a => a.canonical_name) = ["AAPL".toList] ∧
    "AAPL".toList ≠ "Apple Inc.".toList := by decide

/-- Claim C6 (amended): the single-entity resolve produces cluster 0 with
canonical name "AAPL" (the only member name), and `resolve_reference` returns
cluster 0 for each of the queries "AAPL", "Apple" and "Apple Inc." (exact
canonical match for the first, alias containment for the others). -/
theorem C6_resolve_reference_returns_cluster0 :
    c6Plan.assignments.map (fun a => (a.canonical_name, a.canonical_cluster_index)) =
      [("AAPL".toList, 0)] ∧
    resolve_reference c6Plan "AAPL".toList = some 0 ∧
    resolve_reference c6Plan "Apple".toList = some 0 ∧
    resolve_reference c6Plan "Apple Inc.".toList = some 0 := by decide

/-!
## Claim C7 — schema stabilization auto-accept and rerun idempotence
-/

/-- Claim C7: one stabilization run over "services_revenue" (5 observations)
and "service_revenue" (2 observations) creates exactly one proposal for the
pair, auto-accepted, pointing the lower-observation label's `canonical_of` at
the higher-observation label; a second run creates zero further proposals. -/
theorem C7_stabilization_auto_accept_and_rerun :
    (c7Run1.2.1, c7Run1.2.2) = (1, 1) ∧
    c7Run1.1.proposals.map
      (fun p => (p.canonical_id, p.canonical_label, p.merged_id, p.merged_label, p.status)) =
      [(1, "services_revenue".toList, 2, "service_revenue".toList, "auto_accepted".toList)] ∧
    ((c7Run1.1.rows.find? (fun r => r.id = 2)).map (fun r => r.canonical_of_id) =
      some (some 1)) ∧
    (c7Run2.2.1, c7Run2.2.2) = (0, 0) ∧
    c7Run2.1.proposals.length = 1 := by decide

/-!
## Claim C10 — idempotence of `normalize_predicate_label`

Strategy: every output of the pipeline consists of lowercase alphanumerics and
isolated underscores with clean edges and a singularization-fixed last token,
and every pipeline stage is the identity on such strings.
-/

theorem char_le_toNat (a b : Char) : a ≤ b ↔ a.toNat ≤ b.toNat := Iff.rfl

theorem char_eq_toNat (a b : Char) : a = b ↔ a.toNat = b.toNat :=
  ⟨fun h => by rw [h], fun h => Char.eq_of_val_eq (UInt32.toNat.inj h)⟩

theorem charLit_toNat :
    (' ').toNat = 32 ∧ ('\t').toNat = 9 ∧ ('\n').toNat = 10 ∧ ('\r').toNat = 13 ∧
    (Char.ofNat 11).toNat = 11 ∧ (Char.ofNat 12).toNat = 12 ∧ ('.').toNat = 46 ∧
    (',').toNat = 44 ∧ (':').toNat = 58 ∧ (';').toNat = 59 ∧ (Char.ofNat 34).toNat = 34 ∧
    (Char.ofNat 39).toNat = 39 := by decide

/-- A word character: lowercase alphanumeric or underscore. -/
theorem wordChar_not_pyspace {c : Char} (h : isLowerAlnum c = true ∨ c = '_') :
    isPySpace c = false := by
  have hv : (97 ≤ c.toNat ∧ c.toNat ≤ 122) ∨ (48 ≤ c.toNat ∧ c.toNat ≤ 57) ∨ c.toNat = 95 := by
    rcases h with h | h
    · simp only [isLowerAlnum, Bool.or_eq_true, Bool.and_eq_true, decide_eq_true_eq,
        char_le_toNat] at h
      rcases h with h | h
      · exact Or.inl ⟨h.1, h.2⟩
      · exact Or.inr (Or.inl ⟨h.1, h.2⟩)
    · subst h; right; right; rfl
  simp only [isPySpace, Bool.or_eq_false_iff, decide_eq_false_iff_not, char_eq_toNat]
  obtain ⟨e1, e2, e3, e4, e5, e6, e7, e8, e9, e10, e11, e12⟩ := charLit_toNat
  refine ⟨⟨⟨⟨⟨?_, ?_⟩, ?_⟩, ?_⟩, ?_⟩, ?_⟩ <;> omega

theorem wordChar_not_predStrip {c : Char} (h : isLowerAlnum c = true ∨ c = '_') :
    predStripChar c = false := by
  have hv : (97 ≤ c.toNat ∧ c.toNat ≤ 122) ∨ (48 ≤ c.toNat ∧ c.toNat ≤ 57) ∨ c.toNat = 95 := by
    rcases h with h | h
    · simp only [isLowerAlnum, Bool.or_eq_true, Bool.and_eq_true, decide_eq_true_eq,
        char_le_toNat] at h
      rcases h with h | h
      · exact Or.inl ⟨h.1, h.2⟩
      · exact Or.inr (Or.inl ⟨h.1, h.2⟩)
    · subst h; right; right; rfl
  simp only [predStripChar, Bool.or_eq_false_iff, decide_eq_false_iff_not, char_eq_toNat]
  obtain ⟨e1, e2, e3, e4, e5, e6, e7, e8, e9, e10, e11, e12⟩ := charLit_toNat
  refine ⟨⟨⟨⟨⟨⟨⟨⟨⟨?_, ?_⟩, ?_⟩, ?_⟩, ?_⟩, ?_⟩, ?_⟩, ?_⟩, ?_⟩, ?_⟩ <;> omega

theorem wordChar_toLower_fixed {c : Char} (h : isLowerAlnum c = true ∨ c = '_') :
    Char.toLower c = c := by
  have hv : (97 ≤ c.toNat ∧ c.toNat ≤ 122) ∨ (48 ≤ c.toNat ∧ c.toNat ≤ 57) ∨ c.toNat = 95 := by
    rcases h with h | h
    · simp only [isLowerAlnum, Bool.or_eq_true, Bool.and_eq_true, decide_eq_true_eq,
        char_le_toNat] at h
      rcases h with h | h
      · exact Or.inl ⟨h.1, h.2⟩
      · exact Or.inr (Or.inl ⟨h.1, h.2⟩)
    · subst h; right; right; rfl
  unfold Char.toLower
  rw [if_neg]
  omega

theorem wordChar_y : isLowerAlnum 'y' = true ∨ 'y' = '_' := Or.inl (by decide)

/-- Membership in the output of `collapseRuns`. -/
theorem collapseRuns_mem {p : Char → Bool} {rep : Char} :
    ∀ {l : Str} {c : Char}, c ∈ collapseRuns p rep l → c = rep ∨ (p c = false ∧ c ∈ l) := by
  intro l
  induction l using collapseRuns.induct p rep with
  | case1 => intro c h; simp [collapseRuns] at h
  | case2 d hd =>
    intro c h
    simp only [collapseRuns, if_pos hd, List.mem_singleton] at h
    exact Or.inl h
  | case3 d hd =>
    intro c h
    simp only [collapseRuns, if_neg hd, List.mem_singleton] at h
    subst h
    exact Or.inr ⟨Bool.not_eq_true _ ▸ eq_false_of_ne_true hd, List.mem_singleton_self _⟩
  | case4 c₁ c₂ rest hpp ih =>
    intro c h
    simp only [collapseRuns, if_pos hpp] at h
    rcases ih h with h | h
    · exact Or.inl h
    · exact Or.inr ⟨h.1, List.mem_cons_of_mem _ h.2⟩
  | case5 c₁ c₂ rest hpp ih =>
    intro c h
    simp only [collapseRuns, if_neg hpp] at h
    rcases List.mem_cons.mp h with h | h
    · by_cases hp : p c₁ = true
      · rw [if_pos hp] at h
        exact Or.inl h
      · rw [if_neg hp] at h
        subst h
        exact Or.inr ⟨eq_false_of_ne_true hp, List.mem_cons_self _ _⟩
    · rcases ih h with h | h
      · exact Or.inl h
      · exact Or.inr ⟨h.1, List.mem_cons_of_mem _ h.2⟩

theorem collapseRuns_head? (p : Char → Bool) (rep : Char) :
    ∀ (c : Char) (l : Str),
      (collapseRuns p rep (c :: l)).head? = some (if p c then rep else c) := by
  intro c l
  induction l generalizing c with
  | nil => by_cases hp : p c = true <;> simp [collapseRuns, hp]
  | cons d rest ih =>
    by_cases hpp : (p c && p d) = true
    · rw [collapseRuns, if_pos hpp, ih d]
      have hcd : p c = true ∧ p d = true := by simpa using hpp
      rw [if_pos hcd.1, if_pos hcd.2]
    · rw [collapseRuns, if_neg hpp]
      rfl

theorem noAdjPair_cons_of {p : Char → Bool} {a : Char} {l : Str}
    (h₁ : ∀ b, l.head? = some b → (p a && p b) = false) (h₂ : noAdjPair p l = true) :
    noAdjPair p (a :: l) = true := by
  cases l with
  | nil => rfl
  | cons b rest => simp [noAdjPair, h₁ b rfl, h₂]

theorem noAdjPair_tail {p : Char → Bool} {a : Char} {l : Str}
    (h : noAdjPair p (a :: l) = true) : noAdjPair p l = true := by
  cases l with
  | nil => rfl
  | cons b rest =>
    simp only [noAdjPair, Bool.and_eq_true] at h
    exact h.2

theorem collapseRuns_noAdjPair (p : Char → Bool) (rep : Char) :
    ∀ l : Str, noAdjPair p (collapseRuns p rep l) = true := by
  intro l
  induction l using collapseRuns.induct p rep with
  | case1 => rfl
  | case2 c hc => simp [collapseRuns, hc, noAdjPair]
  | case3 c hc => simp [collapseRuns, hc, noAdjPair]
  | case4 c₁ c₂ rest hpp ih => simpa [collapseRuns, hpp] using ih
  | case5 c₁ c₂ rest hpp ih =>
    rw [collapseRuns, if_neg hpp]
    refine noAdjPair_cons_of ?_ ih
    intro b hb
    rw [collapseRuns_head? p rep c₂ rest] at hb
    have hb' : (if p c₂ = true then rep else c₂) = b := Option.some.inj hb
    by_cases hp₁ : p c₁ = true
    · have hp₂ : p c₂ = false := by
        cases hc₂ : p c₂ with
        | false => rfl
        | true => exact absurd (by simp [hp₁, hc₂]) hpp
      rw [if_neg (by simp [hp₂])] at hb'
      subst hb'
      simp [hp₂]
    · simp [hp₁]

theorem noAdjPair_of_all_fail {p : Char → Bool} :
    ∀ {l : Str}, (∀ c ∈ l, p c = false) → noAdjPair p l = true := by
  intro l
  induction l with
  | nil => intro _; rfl
  | cons a rest ih =>
    intro h
    refine noAdjPair_cons_of ?_ (ih fun c hc => h c (List.mem_cons_of_mem _ hc))
    intro b hb
    simp [h a (List.mem_cons_self _ _)]

theorem collapseRuns_fixed {p : Char → Bool} {rep : Char} :
    ∀ {l : Str}, (∀ c ∈ l, p c = true → c = rep) → noAdjPair p l = true →
      collapseRuns p rep l = l := by
  intro l
  induction l using collapseRuns.induct p rep with
  | case1 => intro _ _; rfl
  | case2 c hc =>
    intro hl _
    simp only [collapseRuns, if_pos hc]
    rw [hl c (List.mem_singleton_self _) hc]
  | case3 c hc =>
    intro _ _
    simp [collapseRuns, hc]
  | case4 c₁ c₂ rest hpp ih =>
    intro hl hadj
    exfalso
    simp only [noAdjPair, Bool.and_eq_true, Bool.not_eq_true'] at hadj
    exact absurd hpp (by simp [hadj.1])
  | case5 c₁ c₂ rest hpp ih =>
    intro hl hadj
    rw [collapseRuns, if_neg hpp]
    have htail := ih (fun c hc hp => hl c (List.mem_cons_of_mem _ hc) hp) (noAdjPair_tail hadj)
    rw [htail]
    by_cases hp₁ : p c₁ = true
    · rw [if_pos hp₁, hl c₁ (List.mem_cons_self _ _) hp₁]
    · rw [if_neg hp₁]

theorem collapseRuns_all_fail {p : Char → Bool} {rep : Char} {l : Str}
    (h : ∀ c ∈ l, p c = false) : collapseRuns p rep l = l :=
  collapseRuns_fixed (fun c hc hp => absurd hp (by simp [h c hc]))
    (noAdjPair_of_all_fail h)

theorem dropWhile_all_fail {p : Char → Bool} {l : Str} (h : ∀ c ∈ l, p c = false) :
    l.dropWhile p = l := by
  cases l with
  | nil => rfl
  | cons a rest => simp [List.dropWhile, h a (List.mem_cons_self _ _)]

theorem dropWhile_head?_fail {p : Char → Bool} :
    ∀ {l : Str} {c : Char}, (l.dropWhile p).head? = some c → p c = false := by
  intro l
  induction l with
  | nil => intro c h; simp [List.dropWhile] at h
  | cons a rest ih =>
    intro c h
    by_cases hp : p a = true
    · rw [List.dropWhile_cons_of_pos hp] at h
      exact ih h
    · rw [List.dropWhile_cons_of_neg hp] at h
      have : a = c := by simpa using h
      subst this
      exact eq_false_of_ne_true hp

theorem stripEnds_eq_self {p : Char → Bool} {l : Str}
    (hhead : ∀ c, l.head? = some c → p c = false)
    (hlast : ∀ c, l.getLast? = some c → p c = false) : stripEnds p l = l := by
  unfold stripEnds
  have h₁ : l.dropWhile p = l := by
    cases l with
    | nil => rfl
    | cons a rest => simp [List.dropWhile, hhead a rfl]
  rw [h₁]
  have h₂ : l.reverse.dropWhile p = l.reverse := by
    cases hr : l.reverse with
    | nil => rfl
    | cons a rest =>
      have : l.getLast? = some a := by
        rw [← List.head?_reverse, hr]; rfl
      simp [List.dropWhile, hlast a this]
  rw [h₂, List.reverse_reverse]

theorem stripEnds_all_fail {p : Char → Bool} {l : Str} (h : ∀ c ∈ l, p c = false) :
    stripEnds p l = l :=
  stripEnds_eq_self
    (fun c hc => h c (by cases l with
      | nil => simp at hc
      | cons a rest => exact (by simpa using hc) ▸ List.mem_cons_self _ _))
    (fun c hc => h c (List.mem_of_mem_getLast? hc))

theorem stripEnds_decomp (p : Char → Bool) (l : Str) :
    ∃ pre post, l = pre ++ stripEnds p l ++ post := by
  refine ⟨l.takeWhile p, ((l.dropWhile p).reverse.takeWhile p).reverse, ?_⟩
  unfold stripEnds
  conv_lhs => rw [← List.takeWhile_append_dropWhile p l]
  rw [List.append_assoc]
  congr 1
  conv_lhs => rw [← List.reverse_reverse (l.dropWhile p)]
  conv_lhs => rw [← List.takeWhile_append_dropWhile p (l.dropWhile p).reverse]
  rw [List.reverse_append]

theorem stripEnds_mem {p : Char → Bool} {l : Str} {c : Char} (h : c ∈ stripEnds p l) :
    c ∈ l := by
  obtain ⟨pre, post, hd⟩ := stripEnds_decomp p l
  rw [hd]
  simp [h]

theorem noAdjPair_append_right {p : Char → Bool} :
    ∀ {xs ys : Str}, noAdjPair p (xs ++ ys) = true → noAdjPair p ys = true := by
  intro xs
  induction xs with
  | nil => intro ys h; simpa using h
  | cons a rest ih => intro ys h; exact ih (noAdjPair_tail (by simpa using h))

theorem noAdjPair_append_left {p : Char → Bool} :
    ∀ {xs ys : Str}, noAdjPair p (xs ++ ys) = true → noAdjPair p xs = true := by
  intro xs
  induction xs with
  | nil => intro _ _; rfl
  | cons a rest ih =>
    intro ys h
    cases rest with
    | nil => rfl
    | cons b t =>
      simp only [List.cons_append, noAdjPair, Bool.and_eq_true] at h ⊢
      exact ⟨h.1, by simpa using @ih ys (by simpa using h.2)⟩

theorem stripEnds_noAdjPair {p q : Char → Bool} {l : Str} (h : noAdjPair p l = true) :
    noAdjPair p (stripEnds q l) = true := by
  obtain ⟨pre, post, hd⟩ := stripEnds_decomp q l
  rw [hd, List.append_assoc] at h
  exact noAdjPair_append_left (noAdjPair_append_right h)

theorem stripEnds_getLast?_fail {p : Char → Bool} {l : Str} {c : Char}
    (h : (stripEnds p l).getLast? = some c) : p c = false := by
  unfold stripEnds at h
  rw [List.getLast?_reverse] at h
  exact dropWhile_head?_fail h

theorem stripEnds_head?_fail {p : Char → Bool} {l : Str} {c : Char}
    (h : (stripEnds p l).head? = some c) : p c = false := by
  unfold stripEnds at h
  rw [List.head?_reverse] at h
  have hne : (l.dropWhile p).reverse.dropWhile p ≠ [] := by
    intro hcon
    rw [hcon] at h
    simp at h
  have hlast : ((l.dropWhile p).reverse.dropWhile p).getLast? =
      (l.dropWhile p).reverse.getLast? := by
    conv_rhs => rw [← List.takeWhile_append_dropWhile p (l.dropWhile p).reverse]
    rw [List.getLast?_append_of_ne_nil _ hne]
  rw [hlast, List.getLast?_reverse] at h
  exact dropWhile_head?_fail h

theorem pyLower_fixed {l : Str} (h : ∀ c ∈ l, isLowerAlnum c = true ∨ c = '_') :
    pyLower l = l := by
  unfold pyLower
  induction l with
  | nil => rfl
  | cons a rest ih =>
    rw [List.map_cons, wordChar_toLower_fixed (h a (List.mem_cons_self _ _)),
      ih (fun c hc => h c (List.mem_cons_of_mem _ hc))]

theorem isSuffixOf_exists {sfx t : Str} (h : sfx.isSuffixOf t = true) :
    ∃ u, t = u ++ sfx := by
  rw [List.isSuffixOf_iff_suffix] at h
  obtain ⟨u, hu⟩ := h
  exact ⟨u, hu.symm⟩

theorem exists_isSuffixOf {sfx t u : Str} (h : t = u ++ sfx) : sfx.isSuffixOf t = true := by
  rw [List.isSuffixOf_iff_suffix]
  exact ⟨u, h.symm⟩

theorem isSuffixOf_getLast? {sfx t : Str} (hne : sfx ≠ []) (h : sfx.isSuffixOf t = true) :
    t.getLast? = sfx.getLast? := by
  obtain ⟨u, hu⟩ := isSuffixOf_exists h
  rw [hu, List.getLast?_append_of_ne_nil _ hne]

theorem getLast?_ne_s {t : Str} {c : Char} (hl : t.getLast? = some c) (hc : c ≠ 's') :
    ("ies".toList.isSuffixOf t = false) ∧ ("ss".toList.isSuffixOf t = false) ∧
    ("us".toList.isSuffixOf t = false) ∧ ("is".toList.isSuffixOf t = false) ∧
    ("s".toList.isSuffixOf t = false) := by
  refine ⟨?_, ?_, ?_, ?_, ?_⟩ <;>
    · cases hs : List.isSuffixOf _ t
      · rfl
      · have h2 := isSuffixOf_getLast? (by decide) hs
        rw [hl] at h2
        exact absurd (Option.some.inj (h2.trans (show _ = some 's' by decide))) hc

theorem singularizeToken_eq_self_of_ne_s {u : Str} {c : Char} (hl : u.getLast? = some c)
    (hc : c ≠ 's') : singularizeToken u = u := by
  obtain ⟨h1, h2, h3, h4, h5⟩ := getLast?_ne_s hl hc
  unfold singularizeToken
  by_cases hlen : u.length ≤ 4
  · rw [if_pos hlen]
  · rw [if_neg hlen, if_neg (by rw [h1]; simp), if_neg (by rw [h2, h3, h4]; simp),
      if_neg (by rw [h5]; simp)]

theorem singularizeToken_idem (t : Str) :
    singularizeToken (singularizeToken t) = singularizeToken t := by
  by_cases h4 : t.length ≤ 4
  · have ht : singularizeToken t = t := by unfold singularizeToken; rw [if_pos h4]
    rw [ht]
    exact ht
  · by_cases hies : "ies".toList.isSuffixOf t = true
    · have hu : singularizeToken t = t.take (t.length - 3) ++ ['y'] := by
        unfold singularizeToken
        rw [if_neg h4, if_pos (by rw [hies]; simp; omega)]
      rw [hu]
      exact singularizeToken_eq_self_of_ne_s
        (by rw [List.getLast?_append_of_ne_nil _ (by simp)]; rfl) (by decide)
    · by_cases hsui : ("ss".toList.isSuffixOf t || "us".toList.isSuffixOf t ||
          "is".toList.isSuffixOf t) = true
      · have hu : singularizeToken t = t := by
          unfold singularizeToken
          rw [if_neg h4, if_neg (by rw [eq_false_of_ne_true hies]; simp), if_pos hsui]
        rw [hu]
        exact hu
      · by_cases hs : "s".toList.isSuffixOf t = true
        · obtain ⟨w, hw⟩ := isSuffixOf_exists hs
          rw [show ("s".toList : Str) = ['s'] from rfl] at hw
          have hwlen : t.length = w.length + 1 := by rw [hw]; simp
          have hu : singularizeToken t = w := by
            unfold singularizeToken
            rw [if_neg h4, if_neg (by rw [eq_false_of_ne_true hies]; simp), if_neg hsui,
              if_pos hs]
            rw [hw, show (w ++ ['s']).length - 1 = w.length by simp]
            exact List.take_left w _
          rw [hu]
          rcases hwl : w.getLast? with _ | c
          · exfalso
            have hwe : w = [] := by simpa using hwl
            apply h4
            rw [hw, hwe]
            simp
          · by_cases hcs : c = 's'
            · exfalso
              obtain ⟨w', hw'⟩ := List.getLast?_eq_some_iff.mp hwl
              have hss : "ss".toList.isSuffixOf t = true :=
                exists_isSuffixOf (u := w')
                  (by rw [hw, hw', hcs, show ("ss".toList : Str) = ['s', 's'] from rfl]; simp)
              rw [hss] at hsui
              simp at hsui
            · exact singularizeToken_eq_self_of_ne_s hwl hcs
        · have hu : singularizeToken t = t := by
            unfold singularizeToken
            rw [if_neg h4, if_neg (by rw [eq_false_of_ne_true hies]; simp), if_neg hsui,
              if_neg (by rw [eq_false_of_ne_true hs]; simp)]
          rw [hu]
          exact hu


theorem singularizeToken_mem {t : Str} {c : Char} (h : c ∈ singularizeToken t) :
    c ∈ t ∨ c = 'y' := by
  unfold singularizeToken at h
  split_ifs at h
  · exact Or.inl h
  · rcases List.mem_append.mp h with h | h
    · exact Or.inl (List.mem_of_mem_take h)
    · exact Or.inr (by simpa using h)
  · exact Or.inl h
  · exact Or.inl (List.mem_of_mem_take h)
  · exact Or.inl h

theorem singularizeToken_ne_nil {t : Str} (h : t ≠ []) : singularizeToken t ≠ [] := by
  unfold singularizeToken
  split_ifs with h1 h2 h3 h4
  · exact h
  · simp
  · exact h
  · have hlen : 4 < t.length := by omega
    have hta : (t.take (t.length - 1)).length = t.length - 1 := by
      rw [List.length_take]
      omega
    intro hcon
    rw [hcon] at hta
    simp at hta
    omega
  · exact h

theorem takeWhile_append_stop {p : Char → Bool} :
    ∀ {xs : Str} {b : Char} {ys : Str}, (∀ c ∈ xs, p c = true) → p b = false →
      (xs ++ b :: ys).takeWhile p = xs := by
  intro xs
  induction xs with
  | nil =>
    intro b ys _ hb
    simp [List.takeWhile, hb]
  | cons a rest ih =>
    intro b ys hall hb
    rw [List.cons_append, List.takeWhile_cons_of_pos (hall a (List.mem_cons_self _ _)),
      ih (fun c hc => hall c (List.mem_cons_of_mem _ hc)) hb]

theorem singularizeLastToken_no_underscore {v : Str} (h : v.contains '_' = false) :
    singularizeLastToken v = singularizeToken v := by
  unfold singularizeLastToken
  rw [if_neg (by rw [h]; exact Bool.false_ne_true)]

theorem singularizeLastToken_decomp {v : Str} (h : v.contains '_' = true) :
    ∃ hd tl, v = hd ++ '_' :: tl ∧ ('_' ∉ tl) ∧
      singularizeLastToken v = hd ++ '_' :: singularizeToken tl := by
  have hmem : '_' ∈ v.reverse := by
    rw [List.mem_reverse]
    simpa using h
  set tw := v.reverse.takeWhile (fun c => c ≠ '_') with htw
  set dw := v.reverse.dropWhile (fun c => c ≠ '_') with hdw
  have hsplit : tw ++ dw = v.reverse := List.takeWhile_append_dropWhile _ _
  have hdw_ne : dw ≠ [] := by
    intro hcon
    rw [hcon, List.append_nil] at hsplit
    have hmtw : '_' ∈ tw := hsplit.symm ▸ hmem
    have := List.mem_takeWhile_imp hmtw
    simp at this
  obtain ⟨c, dw', hdwc⟩ := List.exists_cons_of_ne_nil hdw_ne
  have hc : c = '_' := by
    have h2 : (v.reverse.dropWhile (fun c => c ≠ '_')).head? = some c := by
      rw [← hdw, hdwc]
      rfl
    have h3 := dropWhile_head?_fail h2
    simpa using h3
  subst hc
  have hv : v = dw'.reverse ++ '_' :: tw.reverse := by
    conv_lhs => rw [← List.reverse_reverse v, ← hsplit]
    rw [hdwc]
    simp
  refine ⟨dw'.reverse, tw.reverse, hv, ?_, ?_⟩
  · intro hcon
    have := List.mem_takeWhile_imp (List.mem_reverse.mp hcon)
    simp at this
  · unfold singularizeLastToken
    rw [if_pos h]
    dsimp only
    rw [← htw]
    have hlen : v.length - tw.reverse.length - 1 = dw'.reverse.length := by
      rw [hv]
      simp only [List.length_append, List.length_reverse, List.length_cons]
      omega
    rw [hlen, hv, List.take_left]

theorem singularizeLastToken_split {hd s : Str} (hs : '_' ∉ s) :
    singularizeLastToken (hd ++ '_' :: s) = hd ++ '_' :: singularizeToken s := by
  have hcont : (hd ++ '_' :: s).contains '_' = true := by simp
  unfold singularizeLastToken
  rw [if_pos hcont]
  dsimp only
  have hrev : (hd ++ '_' :: s).reverse = s.reverse ++ '_' :: hd.reverse := by simp
  have htws : ((hd ++ '_' :: s).reverse.takeWhile (fun c => c ≠ '_')) = s.reverse := by
    rw [hrev]
    apply takeWhile_append_stop
    · intro c hc
      simp only [decide_eq_true_eq]
      intro hcon
      exact hs (hcon ▸ List.mem_reverse.mp hc)
    · simp
  rw [htws, List.reverse_reverse]
  have hlen : (hd ++ '_' :: s).length - s.length - 1 = hd.length := by
    simp only [List.length_append, List.length_cons]
    omega
  rw [hlen, List.take_left]

theorem noAdjPair_append_of {p : Char → Bool} :
    ∀ {xs ys : Str}, noAdjPair p xs = true → noAdjPair p ys = true →
      (∀ a b, xs.getLast? = some a → ys.head? = some b → (p a && p b) = false) →
      noAdjPair p (xs ++ ys) = true := by
  intro xs
  induction xs with
  | nil =>
    intro ys _ hy _
    simpa using hy
  | cons a rest ih =>
    intro ys hx hy hmid
    rw [List.cons_append]
    cases rest with
    | nil =>
      refine noAdjPair_cons_of ?_ (by simpa using hy)
      intro b hb
      exact hmid a b (by simp) (by simpa using hb)
    | cons a2 t =>
      refine noAdjPair_cons_of ?_ (ih (noAdjPair_tail hx) hy ?_)
      · intro b hb
        have hb2 : a2 = b := by simpa using hb
        subst hb2
        simp only [noAdjPair, Bool.and_eq_true, Bool.not_eq_true'] at hx
        simpa using hx.1
      · intro c b hc hb
        refine hmid c b ?_ hb
        rw [List.getLast?_cons_cons]
        exact hc

theorem normalize_fixed_of_invariants {y : Str}
    (hW : ∀ c ∈ y, isLowerAlnum c = true ∨ c = '_')
    (hN : noAdjPair (fun c => !isLowerAlnum c) y = true)
    (hH : ∀ c, y.head? = some c → c ≠ '_')
    (hL : ∀ c, y.getLast? = some c → c ≠ '_')
    (hF : singularizeLastToken y = y) :
    normalize_predicate_label y = y := by
  rcases eq_or_ne y [] with hnil | hne
  · subst hnil
    rfl
  unfold normalize_predicate_label
  rw [if_neg hne]
  dsimp only
  have h1 : collapseRuns isPySpace ' ' y = y :=
    collapseRuns_all_fail (fun c hc => wordChar_not_pyspace (hW c hc))
  rw [h1]
  have h2 : stripEnds predStripChar y = y :=
    stripEnds_all_fail (fun c hc => wordChar_not_predStrip (hW c hc))
  rw [h2, if_neg hne]
  have h3 : pyLower y = y := pyLower_fixed hW
  rw [h3]
  have h4 : collapseRuns (fun c => !isLowerAlnum c) '_' y = y := by
    refine collapseRuns_fixed ?_ hN
    intro c hc hp
    rcases hW c hc with h | h
    · exfalso
      simp [h] at hp
    · exact h
  rw [h4]
  have h5 : stripEnds (fun c => c = '_') y = y := by
    refine stripEnds_eq_self ?_ ?_
    · intro c hc
      exact decide_eq_false (hH c hc)
    · intro c hc
      exact decide_eq_false (hL c hc)
  rw [h5, hF]

theorem normalize_cases (v : Str) :
    normalize_predicate_label v = [] ∨
    ∃ z, (∀ c ∈ z, isLowerAlnum c = true ∨ c = '_') ∧
      noAdjPair (fun c => !isLowerAlnum c) z = true ∧
      (∀ c, z.head? = some c → c ≠ '_') ∧
      (∀ c, z.getLast? = some c → c ≠ '_') ∧
      normalize_predicate_label v = singularizeLastToken z := by
  by_cases hv : v = []
  · left
    rw [hv]
    rfl
  by_cases hcl : stripEnds predStripChar (collapseRuns isPySpace ' ' v) = []
  · left
    unfold normalize_predicate_label
    rw [if_neg hv]
    dsimp only
    rw [if_pos hcl]
  · right
    refine ⟨stripEnds (fun c => c = '_') (collapseRuns (fun c => !isLowerAlnum c) '_'
      (pyLower (stripEnds predStripChar (collapseRuns isPySpace ' ' v)))), ?_, ?_, ?_, ?_, ?_⟩
    · intro c hc
      rcases collapseRuns_mem (stripEnds_mem hc) with h | h
      · exact Or.inr h
      · left
        simpa using h.1
    · exact stripEnds_noAdjPair (collapseRuns_noAdjPair _ _ _)
    · intro c hc
      have := stripEnds_head?_fail hc
      simpa using this
    · intro c hc
      have := stripEnds_getLast?_fail hc
      simpa using this
    · unfold normalize_predicate_label
      rw [if_neg hv]
      dsimp only
      rw [if_neg hcl]

theorem normalize_fixed_singLast {z : Str}
    (hW : ∀ c ∈ z, isLowerAlnum c = true ∨ c = '_')
    (hN : noAdjPair (fun c => !isLowerAlnum c) z = true)
    (hH : ∀ c, z.head? = some c → c ≠ '_')
    (hL : ∀ c, z.getLast? = some c → c ≠ '_') :
    normalize_predicate_label (singularizeLastToken z) = singularizeLastToken z := by
  cases hz : z.contains '_' with
  | false =>
    have hnm : '_' ∉ z := by
      intro hm
      have hcz : z.contains '_' = true := by simpa using hm
      rw [hz] at hcz
      exact Bool.false_ne_true hcz
    rw [singularizeLastToken_no_underscore hz]
    have hAll : ∀ c ∈ singularizeToken z, isLowerAlnum c = true := by
      intro c hc
      rcases singularizeToken_mem hc with h | h
      · rcases hW c h with h2 | h2
        · exact h2
        · exact absurd (h2 ▸ h) hnm
      · rw [h]
        decide
    refine normalize_fixed_of_invariants ?_ ?_ ?_ ?_ ?_
    · intro c hc
      exact Or.inl (hAll c hc)
    · refine noAdjPair_of_all_fail ?_
      intro c hc
      simp [hAll c hc]
    · intro c hc hcon
      have h2 := hAll c (List.mem_of_mem_head? hc)
      rw [hcon] at h2
      exact absurd h2 (by decide)
    · intro c hc hcon
      have h2 := hAll c (List.mem_of_mem_getLast? hc)
      rw [hcon] at h2
      exact absurd h2 (by decide)
    · have hnm2 : '_' ∉ singularizeToken z := by
        intro hm
        rcases singularizeToken_mem hm with h | h
        · exact hnm h
        · exact absurd h.symm (by decide)
      have hc2 : (singularizeToken z).contains '_' = false := by
        cases hcc : (singularizeToken z).contains '_' with
        | false => rfl
        | true => exact absurd (by simpa using hcc) hnm2
      rw [singularizeLastToken_no_underscore hc2, singularizeToken_idem]
  | true =>
    obtain ⟨hd, tl, hzd, htl, hy⟩ := singularizeLastToken_decomp hz
    rw [hy]
    set st := singularizeToken tl with hst
    have htl_ne : tl ≠ [] := by
      intro hcon
      have hzl : z.getLast? = some '_' := by
        rw [hzd, hcon]
        simp
      exact hL '_' hzl rfl
    have hst_ne : st ≠ [] := singularizeToken_ne_nil htl_ne
    have hstW : ∀ c ∈ st, isLowerAlnum c = true := by
      intro c hc
      rcases singularizeToken_mem hc with h | h
      · have hcz : c ∈ z := by
          rw [hzd]
          simp [h]
        rcases hW c hcz with h2 | h2
        · exact h2
        · exact absurd (h2 ▸ h) htl
      · rw [h]
        decide
    have hst_nm : '_' ∉ st := by
      intro hm
      have h2 := hstW '_' hm
      exact absurd h2 (by decide)
    refine normalize_fixed_of_invariants ?_ ?_ ?_ ?_ ?_
    · intro c hc
      rcases List.mem_append.mp hc with h | h
      · exact hW c (by rw [hzd]; exact List.mem_append.mpr (Or.inl h))
      · rcases List.mem_cons.mp h with h | h
        · exact Or.inr h
        · exact Or.inl (hstW c h)
    · have h1 : noAdjPair (fun c => !isLowerAlnum c) (hd ++ ['_']) = true := by
        have h0 := hN
        rw [hzd, show hd ++ '_' :: tl = (hd ++ ['_']) ++ tl by simp] at h0
        exact noAdjPair_append_left h0
      have h2 : noAdjPair (fun c => !isLowerAlnum c) st = true :=
        noAdjPair_of_all_fail (fun c hc => by simp [hstW c hc])
      have h3 := noAdjPair_append_of h1 h2
        (fun a b ha hb => by simp [hstW b (List.mem_of_mem_head? hb)])
      rw [show (hd ++ ['_']) ++ st = hd ++ '_' :: st by simp] at h3
      exact h3
    · intro c hc hcon
      cases hhd : hd with
      | nil =>
        have hzh : z.head? = some '_' := by
          rw [hzd, hhd]
          rfl
        exact hH '_' hzh rfl
      | cons a hd2 =>
        rw [hhd] at hc
        have hac : a = c := by simpa using hc
        have hzh : z.head? = some a := by
          rw [hzd, hhd]
          rfl
        exact hH a hzh (by rw [hac, hcon])
    · intro c hc hcon
      have h1 : (hd ++ '_' :: st).getLast? = st.getLast? := by
        rw [show hd ++ '_' :: st = (hd ++ ['_']) ++ st by simp,
          List.getLast?_append_of_ne_nil _ hst_ne]
      rw [h1] at hc
      have h2 := hstW c (List.mem_of_mem_getLast? hc)
      rw [hcon] at h2
      exact absurd h2 (by decide)
    · rw [singularizeLastToken_split hst_nm, hst, singularizeToken_idem]

/-- C10: `normalize_predicate_label` is idempotent — applying it to its own
output returns that output unchanged, so re-registering an already-canonical
predicate label can never produce a different normalized form. -/
theorem C10_normalize_predicate_label_idempotent (v : Str) :
    normalize_predicate_label (normalize_predicate_label v) = normalize_predicate_label v := by
  rcases normalize_cases v with h | ⟨z, hW, hN, hH, hL, hdef⟩
  · rw [h]
    rfl
  · rw [hdef]
    exact normalize_fixed_singLast hW hN hH hL

/-!
## Cluster-level invariants of `EntityResolver.resolve` (claim C4)
-/

theorem mem_pyInsert {α : Type} (le : α → α → Bool) (x y : α) :
    ∀ l : List α, y ∈ pyInsert le x l ↔ y = x ∨ y ∈ l := by
  intro l
  induction l with
  | nil => simp [pyInsert]
  | cons z zs ih =>
    by_cases h : le x z = true
    · simp [pyInsert, h]
    · simp only [pyInsert, if_neg h, List.mem_cons, ih]
      tauto

theorem mem_pySorted {α : Type} (le : α → α → Bool) (y : α) :
    ∀ l : List α, y ∈ pySorted le l ↔ y ∈ l := by
  intro l
  induction l with
  | nil => simp [pySorted]
  | cons z zs ih => simp [pySorted, mem_pyInsert, ih]

theorem updateAt_get? {α : Type} (f : α → α) :
    ∀ (l : List α) (n k : Nat),
      (updateAt n f l).get? k = if k = n then (l.get? n).map f else l.get? k := by
  intro l
  induction l with
  | nil =>
    intro n k
    simp [updateAt]
  | cons x xs ih =>
    intro n k
    cases n with
    | zero =>
      cases k with
      | zero => simp [updateAt]
      | succ k2 => simp [updateAt]
    | succ n2 =>
      cases k with
      | zero => simp [updateAt]
      | succ k2 =>
        simp only [updateAt, List.get?]
        rw [ih]
        by_cases h : k2 = n2
        · simp [h]
        · simp [h]

theorem mem_enum_get? {α : Type} {l : List α} {p : Nat × α} (h : p ∈ l.enum) :
    l.get? p.1 = some p.2 := by
  obtain ⟨n, hn⟩ := List.mem_iff_get?.mp h
  rw [List.enum_get?] at hn
  cases hp : l.get? n with
  | none => rw [hp] at hn; exact Option.noConfusion hn
  | some a =>
    rw [hp] at hn
    have hn2 : (n, a) = p := by simpa using hn
    rw [← hn2]
    exact hp

theorem enum_mem_of_get? {α : Type} {l : List α} {k : Nat} {x : α} (h : l.get? k = some x) :
    (k, x) ∈ l.enum := by
  refine List.get?_mem (n := k) ?_
  rw [List.enum_get?, h]
  rfl

theorem drop_eq_cons_of_get? {α : Type} :
    ∀ (n : Nat) (l : List α) (x : α), l.get? n = some x → l.drop n = x :: l.drop (n + 1) := by
  intro n
  induction n with
  | zero =>
    intro l x h
    cases l with
    | nil => simp at h
    | cons y t =>
      have : y = x := by simpa using h
      subst this
      rfl
  | succ n2 ih =>
    intro l x h
    cases l with
    | nil => simp at h
    | cons y t =>
      have h2 : t.get? n2 = some x := by simpa using h
      simpa [List.drop] using ih t x h2

theorem foldl_preserve {α β : Type} {P : α → Prop} {f : α → β → α} :
    ∀ {l : List β} {a : α}, P a → (∀ x b, b ∈ l → P x → P (f x b)) → P (l.foldl f a) := by
  intro l
  induction l with
  | nil => intro a h _; exact h
  | cons b bs ih =>
    intro a h hstep
    exact ih (hstep a b (List.mem_cons_self _ _) h)
      (fun x b2 hb2 hx => hstep x b2 (List.mem_cons_of_mem _ hb2) hx)

theorem setInsert_contains_self (l : List Str) (x : Str) :
    (setInsert l x).contains x = true := by
  unfold setInsert
  by_cases h : l.contains x = true
  · rw [if_pos h]
    exact h
  · rw [if_neg h]
    simp

theorem setInsert_contains_mono {l : List Str} {y : Str} (x : Str)
    (h : l.contains y = true) : (setInsert l x).contains y = true := by
  unfold setInsert
  by_cases hc : l.contains x = true
  · rw [if_pos hc]
    exact h
  · rw [if_neg hc]
    have hy : y ∈ l := by simpa using h
    simp [hy]

theorem recomputeCanonical_members (cl : EntityCluster) :
    (recomputeCanonical cl).members = cl.members := by
  unfold recomputeCanonical
  dsimp only
  split <;> rfl

theorem recomputeCanonical_type_key (cl : EntityCluster) :
    (recomputeCanonical cl).type_key = cl.type_key := by
  unfold recomputeCanonical
  dsimp only
  split <;> rfl

theorem recomputeCanonical_type_label (cl : EntityCluster) :
    (recomputeCanonical cl).type_label = cl.type_label := by
  unfold recomputeCanonical
  dsimp only
  split <;> rfl

theorem recomputeCanonical_normalized (cl : EntityCluster) :
    (recomputeCanonical cl).normalized_aliases = cl.normalized_aliases := by
  unfold recomputeCanonical
  dsimp only
  split <;> rfl

theorem foldl_cluster_proj {β : Type} {g : EntityCluster → β → EntityCluster}
    (hg : ∀ cl b, (g cl b).members = cl.members ∧ (g cl b).type_key = cl.type_key ∧
      (g cl b).type_label = cl.type_label ∧
      ∀ nm, cl.normalized_aliases.contains nm = true →
        (g cl b).normalized_aliases.contains nm = true) :
    ∀ (l : List β) (cl : EntityCluster),
      (l.foldl g cl).members = cl.members ∧ (l.foldl g cl).type_key = cl.type_key ∧
      (l.foldl g cl).type_label = cl.type_label ∧
      ∀ nm, cl.normalized_aliases.contains nm = true →
        (l.foldl g cl).normalized_aliases.contains nm = true := by
  intro l
  induction l with
  | nil => intro cl; exact ⟨rfl, rfl, rfl, fun _ h => h⟩
  | cons b bs ih =>
    intro cl
    obtain ⟨h1, h2, h3, h4⟩ := hg cl b
    obtain ⟨g1, g2, g3, g4⟩ := ih (g cl b)
    refine ⟨by rw [List.foldl_cons, g1, h1], by rw [List.foldl_cons, g2, h2],
      by rw [List.foldl_cons, g3, h3], ?_⟩
    intro nm hnm
    rw [List.foldl_cons]
    exact g4 nm (h4 nm hnm)

theorem AFstep_proj (cl : EntityCluster) (a : Str) :
    ((fun (cl : EntityCluster) (aliasStr : Str) =>
        let cl := { cl with aliases := setInsert cl.aliases aliasStr }
        let normalized := normalize_entity_text aliasStr
        if normalized ≠ [] then
          { cl with normalized_aliases := setInsert cl.normalized_aliases normalized }
        else cl) cl a).members = cl.members ∧
    ((fun (cl : EntityCluster) (aliasStr : Str) =>
        let cl := { cl with aliases := setInsert cl.aliases aliasStr }
        let normalized := normalize_entity_text aliasStr
        if normalized ≠ [] then
          { cl with normalized_aliases := setInsert cl.normalized_aliases normalized }
        else cl) cl a).type_key = cl.type_key ∧
    ((fun (cl : EntityCluster) (aliasStr : Str) =>
        let cl := { cl with aliases := setInsert cl.aliases aliasStr }
        let normalized := normalize_entity_text aliasStr
        if normalized ≠ [] then
          { cl with normalized_aliases := setInsert cl.normalized_aliases normalized }
        else cl) cl a).type_label = cl.type_label ∧
    ∀ nm, cl.normalized_aliases.contains nm = true →
      ((fun (cl : EntityCluster) (aliasStr : Str) =>
        let cl := { cl with aliases := setInsert cl.aliases aliasStr }
        let normalized := normalize_entity_text aliasStr
        if normalized ≠ [] then
          { cl with normalized_aliases := setInsert cl.normalized_aliases normalized }
        else cl) cl a).normalized_aliases.contains nm = true := by
  dsimp only
  by_cases h : normalize_entity_text a ≠ []
  · rw [if_pos h]
    exact ⟨rfl, rfl, rfl, fun nm hnm => setInsert_contains_mono _ hnm⟩
  · rw [if_neg h]
    exact ⟨rfl, rfl, rfl, fun nm hnm => hnm⟩

theorem addMember_members (cl : EntityCluster) (i : Nat) (e : ExtractedEntity)
    (r : Option Str) (c : Score) :
    (addMember cl i e r c).members = cl.members ++ [⟨i, e, r, c⟩] := by
  unfold addMember
  dsimp only
  rw [recomputeCanonical_members, (foldl_cluster_proj AFstep_proj _ _).1]

theorem addMember_type_key (cl : EntityCluster) (i : Nat) (e : ExtractedEntity)
    (r : Option Str) (c : Score) :
    (addMember cl i e r c).type_key = cl.type_key := by
  unfold addMember
  dsimp only
  rw [recomputeCanonical_type_key, (foldl_cluster_proj AFstep_proj _ _).2.1]

theorem addMember_type_label (cl : EntityCluster) (i : Nat) (e : ExtractedEntity)
    (r : Option Str) (c : Score) :
    (addMember cl i e r c).type_label = cl.type_label := by
  unfold addMember
  dsimp only
  rw [recomputeCanonical_type_label, (foldl_cluster_proj AFstep_proj _ _).2.2.1]

theorem addMember_contains_mono {cl : EntityCluster} {nm : Str} (i : Nat)
    (e : ExtractedEntity) (r : Option Str) (c : Score)
    (h : cl.normalized_aliases.contains nm = true) :
    (addMember cl i e r c).normalized_aliases.contains nm = true := by
  unfold addMember
  dsimp only
  rw [recomputeCanonical_normalized]
  exact (foldl_cluster_proj AFstep_proj _ _).2.2.2 nm h

theorem addMember_contains_name (cl : EntityCluster) (i : Nat) (e : ExtractedEntity)
    (r : Option Str) (c : Score) (h : normalize_entity_text e.name ≠ []) :
    (addMember cl i e r c).normalized_aliases.contains
      (normalize_entity_text e.name) = true := by
  unfold addMember
  dsimp only
  rw [recomputeCanonical_normalized]
  rw [show iterEntityAliases e = e.name :: e.aliases from rfl, List.foldl_cons]
  refine (foldl_cluster_proj AFstep_proj _ _).2.2.2 _ ?_
  dsimp only
  rw [if_pos h]
  exact setInsert_contains_self _ _

theorem ratConfOK {q : ℚ} (h : q ≤ 1) : ConfOK (.rat q) := by
  by_cases he : q = 1
  · exact Or.inl (by rw [he])
  · refine Or.inr ⟨?_, ?_⟩
    · simpa [Score.le] using h
    · simp only [Score.le, decide_eq_false_iff_not]
      intro h1
      exact he (le_antisymm h h1)

theorem confOK_le_one {s : Score} (h : ConfOK s) : Score.le s (.rat 1) = true := by
  rcases h with h | h
  · rw [h]
    simp [Score.le]
  · exact h.1

theorem scorePyMax_cases (a b : Score) : Score.pyMax a b = a ∨ Score.pyMax a b = b := by
  unfold Score.pyMax
  split_ifs
  · exact Or.inr rfl
  · exact Or.inl rfl

theorem cosvConfOK {d n : ℚ} (h : d * d < n) : ConfOK (.cosv d n) := by
  refine Or.inr ⟨?_, ?_⟩
  · simp only [Score.le]
    by_cases hd : d ≤ 0
    · rw [if_pos hd]
      simp only [Bool.or_eq_true, decide_eq_true_eq]
      left
      norm_num
    · rw [if_neg hd]
      simp only [Bool.and_eq_true, decide_eq_true_eq]
      constructor
      · norm_num
      · nlinarith [h]
  · simp only [Score.le]
    by_cases hd : 0 ≤ d
    · rw [if_pos hd]
      simp only [Bool.or_eq_false_iff, decide_eq_false_iff_not]
      constructor
      · norm_num
      · nlinarith [h]
    · rw [if_neg hd]
      simp only [Bool.and_eq_false_iff, decide_eq_false_iff_not]
      left
      norm_num

theorem mkCos_confOK (d n : ℚ) : ConfOK (mkCos d n) := by
  unfold mkCos
  split_ifs with h1 h2 h3 h4
  · exact ratConfOK (by norm_num)
  · exact Or.inl rfl
  · exact cosvConfOK (not_le.mp h3)
  · exact ratConfOK (by norm_num)
  · exact cosvConfOK (not_le.mp h4)

theorem cosine_confOK (l r : Option EVec) : ConfOK (cosine_similarity l r) := by
  unfold cosine_similarity
  cases l with
  | none => exact ratConfOK (by norm_num)
  | some lv =>
    cases r with
    | none => exact ratConfOK (by norm_num)
    | some rv =>
      dsimp only
      split_ifs
      · exact ratConfOK (by norm_num)
      · exact ratConfOK (by norm_num)
      · exact mkCos_confOK _ _

theorem bestEmbeddingSimilarity_confOK (ls rs : List Str) :
    ConfOK (bestEmbeddingSimilarity ls rs) := by
  unfold bestEmbeddingSimilarity
  dsimp only
  split_ifs
  · exact ratConfOK (by norm_num)
  · exact ratConfOK (by norm_num)
  · refine foldl_preserve (ratConfOK (by norm_num)) ?_
    intro x b _ hx
    refine foldl_preserve hx ?_
    intro y rv _ hy
    rcases scorePyMax_cases y (cosine_similarity (some b) (some rv)) with h | h
    · rw [h]
      exact hy
    · rw [h]
      exact cosine_confOK _ _

theorem nested_strsim_fold_le_one (names aliases : List Str) :
    names.foldl (fun best cand => aliases.foldl
      (fun b ex => pyMax b (string_similarity cand ex)) best) 0 ≤ 1 := by
  refine foldl_preserve (P := fun q => q ≤ 1) (by norm_num) ?_
  intro x cand _ hx
  refine foldl_preserve (P := fun q => q ≤ 1) hx ?_
  intro y ex _ hy
  unfold pyMax
  split_ifs
  · exact string_similarity_le_one _ _
  · exact hy


theorem clusterMatch_confOK {cl : EntityCluster} {e : ExtractedEntity} {r : Str} {c : Score}
    (h : clusterMatch cl e = some (r, c)) : ConfOK c := by
  unfold clusterMatch at h
  dsimp only at h
  split_ifs at h
  all_goals
    first
    | exact Option.noConfusion h
    | (injection h with h2
       injection h2 with hr hc
       rw [← hc]
       first
       | exact Or.inl rfl
       | exact ratConfOK (nested_strsim_fold_le_one _ _)
       | exact bestEmbeddingSimilarity_confOK _ _)

theorem clusterMatch_name_hit {cl : EntityCluster} {e : ExtractedEntity}
    (hne : normalize_entity_text e.name ≠ [])
    (hcont : cl.normalized_aliases.contains (normalize_entity_text e.name) = true) :
    ∃ r, clusterMatch cl e = some (r, .rat 1) := by
  unfold clusterMatch
  dsimp only
  have hmem : normalize_entity_text e.name ∈
      (((iterEntityAliases e).map normalize_entity_text).filter (fun n => n ≠ [])).dedup := by
    rw [List.mem_dedup, List.mem_filter]
    refine ⟨?_, by simpa using hne⟩
    rw [show iterEntityAliases e = e.name :: e.aliases from rfl]
    exact List.mem_map_of_mem normalize_entity_text (List.mem_cons_self _ _)
  have hempty : ¬ ((((iterEntityAliases e).map normalize_entity_text).filter
      (fun n => n ≠ [])).dedup.isEmpty = true) := by
    rw [List.isEmpty_iff]
    exact List.ne_nil_of_mem hmem
  have hany : (((iterEntityAliases e).map normalize_entity_text).filter
      (fun n => n ≠ [])).dedup.any (fun c => cl.normalized_aliases.contains c) = true := by
    rw [List.any_eq_true]
    exact ⟨_, hmem, hcont⟩
  refine ⟨"exact_name_match".toList, ?_⟩
  rw [if_neg hempty, if_pos hany, if_pos hcont]

theorem scanStep_cases (e : ExtractedEntity) (acc : Option Nat × Option Str × Score)
    (ic : Nat × EntityCluster) :
    (∃ r c, ic.2.type_key = typeKey e.type_label ∧ clusterMatch ic.2 e = some (r, c) ∧
      Score.lt acc.2.2 c = true ∧
      (fun (acc : Option Nat × Option Str × Score) (ic : Nat × EntityCluster) =>
      if ic.2.type_key ≠ typeKey e.type_label then acc
      else
        match clusterMatch ic.2 e with
        | none => acc
        | some (reason, confidence) =>
          if Score.lt acc.2.2 confidence then (some ic.1, some reason, confidence) else acc) acc ic = (some ic.1, some r, c)) ∨
    ((fun (acc : Option Nat × Option Str × Score) (ic : Nat × EntityCluster) =>
      if ic.2.type_key ≠ typeKey e.type_label then acc
      else
        match clusterMatch ic.2 e with
        | none => acc
        | some (reason, confidence) =>
          if Score.lt acc.2.2 confidence then (some ic.1, some reason, confidence) else acc) acc ic = acc ∧
      (ic.2.type_key ≠ typeKey e.type_label ∨ clusterMatch ic.2 e = none ∨
        ∃ r c, clusterMatch ic.2 e = some (r, c) ∧ Score.lt acc.2.2 c = false)) := by
  by_cases ht : ic.2.type_key ≠ typeKey e.type_label
  · right
    refine ⟨?_, Or.inl ht⟩
    dsimp only
    rw [if_pos ht]
  · cases hm : clusterMatch ic.2 e with
    | none =>
      right
      refine ⟨?_, Or.inr (Or.inl rfl)⟩
      dsimp only
      rw [if_neg ht, hm]
    | some rc =>
      obtain ⟨r0, c0⟩ := rc
      cases hlt : Score.lt acc.2.2 c0 with
      | true =>
        left
        refine ⟨r0, c0, not_not.mp ht, rfl, hlt, ?_⟩
        dsimp only
        rw [if_neg ht, hm]
        dsimp only
        rw [if_pos hlt]
      | false =>
        right
        refine ⟨?_, Or.inr (Or.inr ⟨r0, c0, rfl, hlt⟩)⟩
        dsimp only
        rw [if_neg ht, hm]
        dsimp only
        rw [if_neg (by rw [hlt]; exact Bool.false_ne_true)]

theorem scanFold_some_type (e : ExtractedEntity) (clusters : List EntityCluster)
    {f : Option Nat × Option Str × Score → Nat × EntityCluster →
      Option Nat × Option Str × Score}
    (hf : ∀ acc ic,
      (∃ r c, ic.2.type_key = typeKey e.type_label ∧ clusterMatch ic.2 e = some (r, c) ∧
        Score.lt acc.2.2 c = true ∧ f acc ic = (some ic.1, some r, c)) ∨
      (f acc ic = acc ∧
        (ic.2.type_key ≠ typeKey e.type_label ∨ clusterMatch ic.2 e = none ∨
          ∃ r c, clusterMatch ic.2 e = some (r, c) ∧ Score.lt acc.2.2 c = false))) :
    ∀ (l : List (Nat × EntityCluster)) (acc : Option Nat × Option Str × Score),
      (∀ p ∈ l, clusters.get? p.1 = some p.2) →
      (∀ k, acc.1 = some k →
        ∃ cl, clusters.get? k = some cl ∧ cl.type_key = typeKey e.type_label) →
      ∀ k, (l.foldl f acc).1 = some k →
        ∃ cl, clusters.get? k = some cl ∧ cl.type_key = typeKey e.type_label := by
  intro l
  induction l with
  | nil => intro acc _ hacc k hk; exact hacc k hk
  | cons p t ih =>
    intro acc hmem hacc k hk
    rw [List.foldl_cons] at hk
    refine ih (f acc p) (fun q hq => hmem q (List.mem_cons_of_mem _ hq)) ?_ k hk
    intro k2 hk2
    rcases hf acc p with ⟨r, c, hty, hm, hlt, heq⟩ | ⟨heq, hwhy⟩
    · rw [heq] at hk2
      have hp1 : p.1 = k2 := by simpa using hk2
      subst hp1
      exact ⟨p.2, hmem p (List.mem_cons_self _ _), hty⟩
    · rw [heq] at hk2
      exact hacc k2 hk2

theorem scanFold_accOK (e : ExtractedEntity)
    {f : Option Nat × Option Str × Score → Nat × EntityCluster →
      Option Nat × Option Str × Score}
    (hf : ∀ acc ic,
      (∃ r c, ic.2.type_key = typeKey e.type_label ∧ clusterMatch ic.2 e = some (r, c) ∧
        Score.lt acc.2.2 c = true ∧ f acc ic = (some ic.1, some r, c)) ∨
      (f acc ic = acc ∧
        (ic.2.type_key ≠ typeKey e.type_label ∨ clusterMatch ic.2 e = none ∨
          ∃ r c, clusterMatch ic.2 e = some (r, c) ∧ Score.lt acc.2.2 c = false))) :
    ∀ (l : List (Nat × EntityCluster)) (acc : Option Nat × Option Str × Score),
      (acc = (none, none, .rat 0) ∨ ((∃ k, acc.1 = some k) ∧ ConfOK acc.2.2)) →
      (l.foldl f acc = (none, none, .rat 0) ∨
        ((∃ k, (l.foldl f acc).1 = some k) ∧ ConfOK (l.foldl f acc).2.2)) := by
  intro l
  induction l with
  | nil => intro acc h; exact h
  | cons p t ih =>
    intro acc h
    rw [List.foldl_cons]
    refine ih (f acc p) ?_
    rcases hf acc p with ⟨r, c, hty, hm, hlt, heq⟩ | ⟨heq, hwhy⟩
    · rw [heq]
      exact Or.inr ⟨⟨p.1, rfl⟩, clusterMatch_confOK hm⟩
    · rw [heq]
      exact h

theorem scanFold_keep_one (e : ExtractedEntity)
    {f : Option Nat × Option Str × Score → Nat × EntityCluster →
      Option Nat × Option Str × Score}
    (hf : ∀ acc ic,
      (∃ r c, ic.2.type_key = typeKey e.type_label ∧ clusterMatch ic.2 e = some (r, c) ∧
        Score.lt acc.2.2 c = true ∧ f acc ic = (some ic.1, some r, c)) ∨
      (f acc ic = acc ∧
        (ic.2.type_key ≠ typeKey e.type_label ∨ clusterMatch ic.2 e = none ∨
          ∃ r c, clusterMatch ic.2 e = some (r, c) ∧ Score.lt acc.2.2 c = false))) :
    ∀ (l : List (Nat × EntityCluster)) (acc : Option Nat × Option Str × Score),
      (∃ k, acc.1 = some k) → acc.2.2 = .rat 1 →
      (∃ k, (l.foldl f acc).1 = some k) ∧ (l.foldl f acc).2.2 = .rat 1 := by
  intro l
  induction l with
  | nil => intro acc h1 h2; exact ⟨h1, h2⟩
  | cons p t ih =>
    intro acc h1 h2
    rw [List.foldl_cons]
    rcases hf acc p with ⟨r, c, hty, hm, hlt, heq⟩ | ⟨heq, hwhy⟩
    · exfalso
      rw [h2] at hlt
      unfold Score.lt at hlt
      rw [confOK_le_one (clusterMatch_confOK hm)] at hlt
      simp at hlt
    · rw [heq]
      exact ih acc h1 h2

theorem scanStep_attain (e : ExtractedEntity)
    {f : Option Nat × Option Str × Score → Nat × EntityCluster →
      Option Nat × Option Str × Score}
    (hf : ∀ acc ic,
      (∃ r c, ic.2.type_key = typeKey e.type_label ∧ clusterMatch ic.2 e = some (r, c) ∧
        Score.lt acc.2.2 c = true ∧ f acc ic = (some ic.1, some r, c)) ∨
      (f acc ic = acc ∧
        (ic.2.type_key ≠ typeKey e.type_label ∨ clusterMatch ic.2 e = none ∨
          ∃ r c, clusterMatch ic.2 e = some (r, c) ∧ Score.lt acc.2.2 c = false)))
    {acc : Option Nat × Option Str × Score} (k₀ : Nat) {cl₀ : EntityCluster} {r₀ : Str}
    (hty : cl₀.type_key = typeKey e.type_label)
    (hm : clusterMatch cl₀ e = some (r₀, .rat 1))
    (hAcc : acc = (none, none, .rat 0) ∨ ((∃ k, acc.1 = some k) ∧ ConfOK acc.2.2)) :
    (∃ k, (f acc (k₀, cl₀)).1 = some k) ∧ (f acc (k₀, cl₀)).2.2 = .rat 1 := by
  rcases hf acc (k₀, cl₀) with ⟨r, c, hty2, hm2, hlt, heq⟩ | ⟨heq, hwhy⟩
  · dsimp only at hm2 heq
    rw [hm] at hm2
    injection hm2 with h3
    injection h3 with hr hc
    rw [heq]
    exact ⟨⟨k₀, rfl⟩, hc.symm⟩
  · rcases hwhy with hne | hnone | ⟨r, c, hm2, hltf⟩
    · dsimp only at hne
      exact absurd hty hne
    · dsimp only at hnone
      rw [hm] at hnone
      exact Option.noConfusion hnone
    · dsimp only at hm2
      rw [hm] at hm2
      injection hm2 with h3
      injection h3 with hr hc
      rw [← hc] at hltf
      have hle : Score.le (.rat 1) acc.2.2 = true := by
        unfold Score.lt at hltf
        simpa using hltf
      rcases hAcc with h0 | ⟨hk, hconf⟩
      · exfalso
        rw [h0] at hle
        have h10 : ((1 : ℚ) ≤ 0) := by simpa [Score.le] using hle
        linarith
      · rcases hconf with h1 | ⟨hle2, hfalse⟩
        · rw [heq]
          exact ⟨hk, h1⟩
        · exfalso
          rw [hfalse] at hle
          exact absurd hle Bool.false_ne_true

theorem scanClusters_some_type (clusters : List EntityCluster) (e : ExtractedEntity) {k : Nat}
    (h : (scanClusters clusters e).1 = some k) :
    ∃ cl, clusters.get? k = some cl ∧ cl.type_key = typeKey e.type_label := by
  unfold scanClusters at h
  exact scanFold_some_type e clusters (scanStep_cases e) clusters.enum _
    (fun p hp => mem_enum_get? hp) (fun k2 hk2 => Option.noConfusion hk2) k h

theorem scanClusters_hit (clusters : List EntityCluster) (e : ExtractedEntity) {k₀ : Nat}
    {cl₀ : EntityCluster} {r₀ : Str} (hget : clusters.get? k₀ = some cl₀)
    (hty : cl₀.type_key = typeKey e.type_label)
    (hm : clusterMatch cl₀ e = some (r₀, .rat 1)) :
    (∃ k, (scanClusters clusters e).1 = some k) ∧ (scanClusters clusters e).2.2 = .rat 1 := by
  unfold scanClusters
  have henum : clusters.enum.get? k₀ = some (k₀, cl₀) := by
    rw [List.enum_get?, hget]
    rfl
  have hsplit : clusters.enum =
      clusters.enum.take k₀ ++ (k₀, cl₀) :: clusters.enum.drop (k₀ + 1) := by
    conv_lhs => rw [← List.take_append_drop k₀ clusters.enum]
    rw [drop_eq_cons_of_get? _ _ _ henum]
  rw [hsplit, List.foldl_append, List.foldl_cons]
  have hacc1 := scanFold_accOK e (scanStep_cases e) (clusters.enum.take k₀)
    (none, none, .rat 0) (Or.inl rfl)
  have hattain := scanStep_attain e (scanStep_cases e) k₀ hty hm hacc1
  exact scanFold_keep_one e (scanStep_cases e) (clusters.enum.drop (k₀ + 1)) _
    hattain.1 hattain.2

theorem newCluster_members (i : Nat) (e : ExtractedEntity) :
    (newCluster i e).members = [⟨i, e, none, .rat 1⟩] := by
  unfold newCluster
  rw [addMember_members]
  rfl

theorem newCluster_type_key (i : Nat) (e : ExtractedEntity) :
    (newCluster i e).type_key = typeKey e.type_label := by
  unfold newCluster
  rw [addMember_type_key]

theorem newCluster_contains_name (i : Nat) (e : ExtractedEntity)
    (h : normalize_entity_text e.name ≠ []) :
    (newCluster i e).normalized_aliases.contains (normalize_entity_text e.name) = true := by
  unfold newCluster
  exact addMember_contains_name _ _ _ _ _ h

theorem resolveStep_cases (clusters : List EntityCluster) (ie : Nat × ExtractedEntity) :
    ((scanClusters clusters ie.2).1 = none ∧
      (fun (clusters : List EntityCluster) (ie : Nat × ExtractedEntity) =>
      let scan := scanClusters clusters ie.2
      match scan.1 with
      | none => clusters ++ [newCluster ie.1 ie.2]
      | some idx =>
        updateAt idx (fun cl => addMember cl ie.1 ie.2 scan.2.1 scan.2.2) clusters) clusters ie = clusters ++ [newCluster ie.1 ie.2]) ∨
    (∃ idx, (scanClusters clusters ie.2).1 = some idx ∧
      (fun (clusters : List EntityCluster) (ie : Nat × ExtractedEntity) =>
      let scan := scanClusters clusters ie.2
      match scan.1 with
      | none => clusters ++ [newCluster ie.1 ie.2]
      | some idx =>
        updateAt idx (fun cl => addMember cl ie.1 ie.2 scan.2.1 scan.2.2) clusters) clusters ie = updateAt idx
        (fun cl => addMember cl ie.1 ie.2 (scanClusters clusters ie.2).2.1
          (scanClusters clusters ie.2).2.2) clusters) := by
  cases hs : (scanClusters clusters ie.2).1 with
  | none =>
    left
    refine ⟨rfl, ?_⟩
    dsimp only
    rw [hs]
  | some idx =>
    right
    refine ⟨idx, rfl, ?_⟩
    dsimp only
    rw [hs]

theorem resolveFold_inv (entities : List ExtractedEntity)
    {f : List EntityCluster → Nat × ExtractedEntity → List EntityCluster}
    (hf : ∀ clusters ie,
      ((scanClusters clusters ie.2).1 = none ∧
        f clusters ie = clusters ++ [newCluster ie.1 ie.2]) ∨
      (∃ idx, (scanClusters clusters ie.2).1 = some idx ∧
        f clusters ie = updateAt idx
          (fun cl => addMember cl ie.1 ie.2 (scanClusters clusters ie.2).2.1
            (scanClusters clusters ie.2).2.2) clusters)) :
    ∀ (l : List (Nat × ExtractedEntity)) (clusters : List EntityCluster),
      (∀ p ∈ l, entities.get? p.1 = some p.2) →
      (∀ cl ∈ clusters, ∀ m ∈ cl.members, typeKey m.entity.type_label = cl.type_key ∧
        entities.get? m.extracted_index = some m.entity) →
      ∀ cl ∈ l.foldl f clusters, ∀ m ∈ cl.members, typeKey m.entity.type_label = cl.type_key ∧
        entities.get? m.extracted_index = some m.entity := by
  intro l
  induction l with
  | nil => intro clusters _ hinv; exact hinv
  | cons p t ih =>
    intro clusters hmem hinv
    rw [List.foldl_cons]
    refine ih (f clusters p) (fun q hq => hmem q (List.mem_cons_of_mem _ hq)) ?_
    have hp := hmem p (List.mem_cons_self _ _)
    rcases hf clusters p with ⟨hnone, heq⟩ | ⟨idx, hsome, heq⟩
    · rw [heq]
      intro cl hcl m hm
      rcases List.mem_append.mp hcl with hcl | hcl
      · exact hinv cl hcl m hm
      · have hcln : cl = newCluster p.1 p.2 := by simpa using hcl
        subst hcln
        rw [newCluster_members] at hm
        have hmn : m = ⟨p.1, p.2, none, .rat 1⟩ := by simpa using hm
        subst hmn
        rw [newCluster_type_key]
        exact ⟨rfl, hp⟩
    · rw [heq]
      intro cl hcl m hm
      obtain ⟨k, hk⟩ := List.mem_iff_get?.mp hcl
      rw [updateAt_get? _ clusters idx k] at hk
      by_cases hkidx : k = idx
      · rw [if_pos hkidx] at hk
        cases hget0 : clusters.get? idx with
        | none => rw [hget0] at hk; exact Option.noConfusion hk
        | some cl0 =>
          rw [hget0] at hk
          have hcl0 : cl = addMember cl0 p.1 p.2 (scanClusters clusters p.2).2.1
              (scanClusters clusters p.2).2.2 := by
            have := Option.some.inj hk
            rw [← this]
          subst hcl0
          rw [addMember_members] at hm
          rw [addMember_type_key]
          rcases List.mem_append.mp hm with hm | hm
          · exact hinv cl0 (List.get?_mem hget0) m hm
          · have hmn : m = ⟨p.1, p.2, (scanClusters clusters p.2).2.1,
                (scanClusters clusters p.2).2.2⟩ := by simpa using hm
            subst hmn
            obtain ⟨clx, hgetx, htyx⟩ := scanClusters_some_type clusters p.2 hsome
            rw [hgetx] at hget0
            have hx : clx = cl0 := Option.some.inj hget0
            subst hx
            exact ⟨htyx.symm, hp⟩
      · rw [if_neg hkidx] at hk
        exact hinv cl (List.get?_mem hk) m hm

theorem resolveStep_hasNm {f : List EntityCluster → Nat × ExtractedEntity → List EntityCluster}
    (hf : ∀ clusters ie,
      ((scanClusters clusters ie.2).1 = none ∧
        f clusters ie = clusters ++ [newCluster ie.1 ie.2]) ∨
      (∃ idx, (scanClusters clusters ie.2).1 = some idx ∧
        f clusters ie = updateAt idx
          (fun cl => addMember cl ie.1 ie.2 (scanClusters clusters ie.2).2.1
            (scanClusters clusters ie.2).2.2) clusters)) (clusters : List EntityCluster) (i : Nat) (e : ExtractedEntity)
    (hne : normalize_entity_text e.name ≠ []) :
    ∃ k cl, (f clusters (i, e)).get? k = some cl ∧ cl.type_key = typeKey e.type_label ∧
      cl.normalized_aliases.contains (normalize_entity_text e.name) = true := by
  rcases hf clusters (i, e) with ⟨hnone, heq⟩ | ⟨idx, hsome, heq⟩
  · refine ⟨clusters.length, newCluster i e, ?_, newCluster_type_key i e,
      newCluster_contains_name i e hne⟩
    rw [heq]
    exact List.get?_concat_length _ _
  · dsimp only at hsome heq
    obtain ⟨cl0, hget0, hty0⟩ := scanClusters_some_type clusters e hsome
    refine ⟨idx, addMember cl0 i e (scanClusters clusters e).2.1
      (scanClusters clusters e).2.2, ?_, ?_, ?_⟩
    · rw [heq, updateAt_get? _ clusters idx idx, if_pos rfl, hget0]
      rfl
    · rw [addMember_type_key]
      exact hty0
    · exact addMember_contains_name _ _ _ _ _ hne

theorem resolveStep_hasNm_mono {f : List EntityCluster → Nat × ExtractedEntity → List EntityCluster}
    (hf : ∀ clusters ie,
      ((scanClusters clusters ie.2).1 = none ∧
        f clusters ie = clusters ++ [newCluster ie.1 ie.2]) ∨
      (∃ idx, (scanClusters clusters ie.2).1 = some idx ∧
        f clusters ie = updateAt idx
          (fun cl => addMember cl ie.1 ie.2 (scanClusters clusters ie.2).2.1
            (scanClusters clusters ie.2).2.2) clusters)) (clusters : List EntityCluster) (p : Nat × ExtractedEntity) {tk nm : Str}
    (h : ∃ k cl, clusters.get? k = some cl ∧ cl.type_key = tk ∧
      cl.normalized_aliases.contains nm = true) :
    ∃ k cl, (f clusters p).get? k = some cl ∧ cl.type_key = tk ∧
      cl.normalized_aliases.contains nm = true := by
  obtain ⟨k, cl, hget, hty, hcont⟩ := h
  rcases hf clusters p with ⟨_, heq⟩ | ⟨idx, _, heq⟩
  · obtain ⟨hlt, -⟩ := List.get?_eq_some.mp hget
    exact ⟨k, cl, by rw [heq, List.get?_append hlt]; exact hget, hty, hcont⟩
  · by_cases hk : k = idx
    · subst hk
      refine ⟨k, addMember cl p.1 p.2 (scanClusters clusters p.2).2.1
        (scanClusters clusters p.2).2.2, ?_, ?_, ?_⟩
      · rw [heq, updateAt_get? _ clusters k k, if_pos rfl, hget]
        rfl
      · rw [addMember_type_key]
        exact hty
      · exact addMember_contains_mono _ _ _ _ hcont
    · exact ⟨k, cl, by rw [heq, updateAt_get? _ clusters idx k, if_neg hk]; exact hget,
        hty, hcont⟩

theorem resolveStep_mem_conf {f : List EntityCluster → Nat × ExtractedEntity → List EntityCluster}
    (hf : ∀ clusters ie,
      ((scanClusters clusters ie.2).1 = none ∧
        f clusters ie = clusters ++ [newCluster ie.1 ie.2]) ∨
      (∃ idx, (scanClusters clusters ie.2).1 = some idx ∧
        f clusters ie = updateAt idx
          (fun cl => addMember cl ie.1 ie.2 (scanClusters clusters ie.2).2.1
            (scanClusters clusters ie.2).2.2) clusters)) (clusters : List EntityCluster) (i : Nat) (e : ExtractedEntity)
    (h1 : ∃ k, (scanClusters clusters e).1 = some k)
    (h2 : (scanClusters clusters e).2.2 = .rat 1) :
    ∃ k cl m, (f clusters (i, e)).get? k = some cl ∧ m ∈ cl.members ∧
      m.extracted_index = i ∧ m.merge_confidence = .rat 1 := by
  obtain ⟨k0, hk0⟩ := h1
  rcases hf clusters (i, e) with ⟨hnone, heq⟩ | ⟨idx, hsome, heq⟩
  · dsimp only at hnone
    rw [hnone] at hk0
    exact Option.noConfusion hk0
  · dsimp only at hsome heq
    obtain ⟨cl0, hget0, hty0⟩ := scanClusters_some_type clusters e hsome
    refine ⟨idx, addMember cl0 i e (scanClusters clusters e).2.1
      (scanClusters clusters e).2.2,
      ⟨i, e, (scanClusters clusters e).2.1, (scanClusters clusters e).2.2⟩, ?_, ?_, rfl, h2⟩
    · rw [heq, updateAt_get? _ clusters idx idx, if_pos rfl, hget0]
      rfl
    · rw [addMember_members]
      exact List.mem_append.mpr (Or.inr (List.mem_singleton_self _))

theorem resolveStep_mem_conf_mono {f : List EntityCluster → Nat × ExtractedEntity → List EntityCluster}
    (hf : ∀ clusters ie,
      ((scanClusters clusters ie.2).1 = none ∧
        f clusters ie = clusters ++ [newCluster ie.1 ie.2]) ∨
      (∃ idx, (scanClusters clusters ie.2).1 = some idx ∧
        f clusters ie = updateAt idx
          (fun cl => addMember cl ie.1 ie.2 (scanClusters clusters ie.2).2.1
            (scanClusters clusters ie.2).2.2) clusters)) (clusters : List EntityCluster) (p : Nat × ExtractedEntity) {j : Nat}
    (h : ∃ k cl m, clusters.get? k = some cl ∧ m ∈ cl.members ∧
      m.extracted_index = j ∧ m.merge_confidence = .rat 1) :
    ∃ k cl m, (f clusters p).get? k = some cl ∧ m ∈ cl.members ∧
      m.extracted_index = j ∧ m.merge_confidence = .rat 1 := by
  obtain ⟨k, cl, m, hget, hmem, hidx, hconf⟩ := h
  rcases hf clusters p with ⟨_, heq⟩ | ⟨idx, _, heq⟩
  · obtain ⟨hlt, -⟩ := List.get?_eq_some.mp hget
    exact ⟨k, cl, m, by rw [heq, List.get?_append hlt]; exact hget, hmem, hidx, hconf⟩
  · by_cases hk : k = idx
    · subst hk
      refine ⟨k, addMember cl p.1 p.2 (scanClusters clusters p.2).2.1
        (scanClusters clusters p.2).2.2, m, ?_, ?_, hidx, hconf⟩
      · rw [heq, updateAt_get? _ clusters k k, if_pos rfl, hget]
        rfl
      · rw [addMember_members]
        exact List.mem_append.mpr (Or.inl hmem)
    · exact ⟨k, cl, m, by rw [heq, updateAt_get? _ clusters idx k, if_neg hk]; exact hget,
        hmem, hidx, hconf⟩

theorem resolveClusters_inv (entities : List ExtractedEntity) :
    ∀ cl ∈ resolveClusters entities, ∀ m ∈ cl.members,
      typeKey m.entity.type_label = cl.type_key ∧
      entities.get? m.extracted_index = some m.entity := by
  unfold resolveClusters
  exact resolveFold_inv entities resolveStep_cases entities.enum []
    (fun p hp => mem_enum_get? hp) (fun cl hcl => absurd hcl (List.not_mem_nil _))

theorem buildAssignment_extracted (cl : EntityCluster) (k : Nat) (m : ClusterMember) :
    (buildAssignment cl k m).extracted_index = m.extracted_index := rfl

theorem buildAssignment_cluster (cl : EntityCluster) (k : Nat) (m : ClusterMember) :
    (buildAssignment cl k m).canonical_cluster_index = k := rfl

theorem buildAssignment_confidence_one {cl : EntityCluster} {k : Nat} {m : ClusterMember}
    (h : m.merge_confidence = .rat 1) : (buildAssignment cl k m).confidence = .rat 1 := by
  unfold buildAssignment
  dsimp only
  split_ifs with hc
  · rfl
  · exact h

theorem mem_resolve_assignments {entities : List ExtractedEntity}
    {a : EntityResolutionAssignment} :
    a ∈ (resolve entities).assignments ↔
    ∃ k cl m, (resolveClusters entities).get? k = some cl ∧ m ∈ cl.members ∧
      a = buildAssignment cl k m := by
  unfold resolve
  dsimp only
  rw [mem_pySorted, List.mem_flatMap]
  constructor
  · rintro ⟨ic, hic, ha⟩
    rw [List.mem_map] at ha
    obtain ⟨m, hm, hbm⟩ := ha
    exact ⟨ic.1, ic.2, m, mem_enum_get? hic, hm, hbm.symm⟩
  · rintro ⟨k, cl, m, hget, hm, ha⟩
    exact ⟨(k, cl), enum_mem_of_get? hget, List.mem_map.mpr ⟨m, hm, ha.symm⟩⟩

/-- C4 (amended): all members of one resolve cluster share the cluster's type
key, so two extracted entities whose type keys differ are never assigned to the
same cluster; and when an earlier and a later entity have names normalizing to
the same non-empty string and equal type keys, the later entity receives an
assignment at confidence exactly 1.0 (though not necessarily into the earlier
entity's cluster). -/
theorem C4_type_partition_and_later_confidence :
    (∀ (entities : List ExtractedEntity) (a₁ a₂ : EntityResolutionAssignment)
        (e₁ e₂ : ExtractedEntity),
      a₁ ∈ (resolve entities).assignments → a₂ ∈ (resolve entities).assignments →
      a₁.canonical_cluster_index = a₂.canonical_cluster_index →
      entities.get? a₁.extracted_index = some e₁ →
      entities.get? a₂.extracted_index = some e₂ →
      typeKey e₁.type_label = typeKey e₂.type_label) ∧
    (∀ (entities : List ExtractedEntity) (i j : Nat) (ei ej : ExtractedEntity),
      i < j → entities.get? i = some ei → entities.get? j = some ej →
      normalize_entity_text ei.name = normalize_entity_text ej.name →
      normalize_entity_text ej.name ≠ [] →
      typeKey ei.type_label = typeKey ej.type_label →
      ∃ a ∈ (resolve entities).assignments,
        a.extracted_index = j ∧ a.confidence = .rat 1) := by
  constructor
  · intro entities a₁ a₂ e₁ e₂ h₁ h₂ hcc hg₁ hg₂
    obtain ⟨k₁, cl₁, m₁, hget₁, hm₁, hae₁⟩ := mem_resolve_assignments.mp h₁
    obtain ⟨k₂, cl₂, m₂, hget₂, hm₂, hae₂⟩ := mem_resolve_assignments.mp h₂
    obtain ⟨hty₁, hge₁⟩ := resolveClusters_inv entities cl₁ (List.get?_mem hget₁) m₁ hm₁
    obtain ⟨hty₂, hge₂⟩ := resolveClusters_inv entities cl₂ (List.get?_mem hget₂) m₂ hm₂
    have hk : k₁ = k₂ := by
      rw [hae₁, hae₂, buildAssignment_cluster, buildAssignment_cluster] at hcc
      exact hcc
    subst hk
    rw [hget₁] at hget₂
    have hcl : cl₁ = cl₂ := Option.some.inj hget₂
    have he₁ : e₁ = m₁.entity := by
      rw [hae₁, buildAssignment_extracted, hge₁] at hg₁
      exact (Option.some.inj hg₁).symm
    have he₂ : e₂ = m₂.entity := by
      rw [hae₂, buildAssignment_extracted, hge₂] at hg₂
      exact (Option.some.inj hg₂).symm
    rw [he₁, he₂, hty₁, hty₂, hcl]
  · intro entities i j ei ej hij hgi hgj hnames hne hty
    have hnei : normalize_entity_text ei.name ≠ [] := by
      rw [hnames]
      exact hne
    have hEi : entities.enum.get? i = some (i, ei) := by
      rw [List.enum_get?, hgi]
      rfl
    have hEj : entities.enum.get? j = some (j, ej) := by
      rw [List.enum_get?, hgj]
      rfl
    have hMem : ∃ k cl m, (resolveClusters entities).get? k = some cl ∧ m ∈ cl.members ∧
        m.extracted_index = j ∧ m.merge_confidence = .rat 1 := by
      unfold resolveClusters
      have hsplit1 : entities.enum =
          entities.enum.take i ++ (i, ei) :: entities.enum.drop (i + 1) := by
        conv_lhs => rw [← List.take_append_drop i entities.enum]
        rw [drop_eq_cons_of_get? _ _ _ hEi]
      have hD : (entities.enum.drop (i + 1)).get? (j - i - 1) = some (j, ej) := by
        rw [List.get?_drop, show i + 1 + (j - i - 1) = j by omega]
        exact hEj
      have hsplit2 : entities.enum.drop (i + 1) =
          (entities.enum.drop (i + 1)).take (j - i - 1) ++ (j, ej) ::
            (entities.enum.drop (i + 1)).drop (j - i - 1 + 1) := by
        conv_lhs => rw [← List.take_append_drop (j - i - 1) (entities.enum.drop (i + 1))]
        rw [drop_eq_cons_of_get? _ _ _ hD]
      rw [hsplit1, List.foldl_append, List.foldl_cons, hsplit2, List.foldl_append,
        List.foldl_cons]
      have h₂ := resolveStep_hasNm resolveStep_cases
        ((entities.enum.take i).foldl
          (fun (clusters : List EntityCluster) (ie : Nat × ExtractedEntity) =>
          let scan := scanClusters clusters ie.2
          match scan.1 with
          | none => clusters ++ [newCluster ie.1 ie.2]
          | some idx =>
            updateAt idx (fun cl => addMember cl ie.1 ie.2 scan.2.1 scan.2.2) clusters) []) i ei hnei
      have h₃ := foldl_preserve
        (P := fun clusters => ∃ k cl, clusters.get? k = some cl ∧
          cl.type_key = typeKey ei.type_label ∧
          cl.normalized_aliases.contains (normalize_entity_text ei.name) = true)
        (l := (entities.enum.drop (i + 1)).take (j - i - 1))
        h₂ (fun x p _ hx => resolveStep_hasNm_mono resolveStep_cases x p hx)
      obtain ⟨k, cl, hget, htyc, hcont⟩ := h₃
      rw [hnames] at hcont
      obtain ⟨r₀, hm⟩ := clusterMatch_name_hit hne hcont
      have hhit := scanClusters_hit _ ej hget (by rw [← hty]; exact htyc) hm
      have hstep := resolveStep_mem_conf resolveStep_cases _ j ej hhit.1 hhit.2
      exact foldl_preserve
        (P := fun clusters => ∃ k cl m, clusters.get? k = some cl ∧ m ∈ cl.members ∧
          m.extracted_index = j ∧ m.merge_confidence = .rat 1)
        hstep (fun x p _ hx => resolveStep_mem_conf_mono resolveStep_cases x p hx)
    obtain ⟨k, cl, m, hget, hm, hidx, hconf⟩ := hMem
    refine ⟨buildAssignment cl k m,
      mem_resolve_assignments.mpr ⟨k, cl, m, hget, hm, rfl⟩, ?_, ?_⟩
    · rw [buildAssignment_extracted, hidx]
    · exact buildAssignment_confidence_one hconf

/-- Witness for the amended C4 theorem at a concrete batch: the later of two
identically-named, identically-typed entities gets an assignment at
confidence 1. -/
theorem C4_type_partition_witness :
    ∃ a ∈ (resolve [c4wApple, c4wApple2]).assignments,
      a.extracted_index = 1 ∧ a.confidence = .rat 1 :=
  C4_type_partition_and_later_confidence.2 [c4wApple, c4wApple2] 0 1 c4wApple c4wApple2
    (by decide) rfl rfl rfl (by decide) rfl
